import Mathlib

/-!
Verification development for the `tree` directory-listing engine.

The Go sources embedded here are the node/traversal/rendering engine
(`Node`, `Visit`, `match`, `sort`, `dirRecursiveSize`, `print`,
`formatBytes`), the `ostree` filesystem capability, and the platform
`CTimeSort` comparators.  Pure functions are translated directly; the
filesystem, OS symlink calls and the per-traversal shared visited-path
map are modelled explicitly (the shared mutable map becomes threaded
state, which is equivalent for this single-threaded code).  Machine
integers (`int64`) are modelled as `Int`; the float64 arithmetic of
`formatBytes` is modelled by exact rational arithmetic together with
round-to-nearest-ties-to-even decimal rendering, which agrees with the
float computation whenever the scaled value is exactly representable
(in particular on every value appearing in the theorems below).
-/

namespace GoTree

/-! ## Small string helpers (Go `fmt` padding, newline counting) -/

/-- Go `fmt` right-justification in a field of width `w` (`"%4s"`, `"%11d"`, `"%3d"`). -/
def padLeftTo (w : Nat) (s : String) : String :=
  String.mk (List.replicate (w - s.length) ' ') ++ s

/-- Go `fmt` left-justification in a field of width `w` (`"%-8s"`, `"%-4s"`). -/
def padRightTo (w : Nat) (s : String) : String :=
  s ++ String.mk (List.replicate (w - s.length) ' ')

/-- Number of newline characters in a string: the number of `fmt.Fprintln`
terminated lines the renderer wrote. -/
def countNL (s : String) : Nat :=
  (s.toList.filter (· = '\n')).length

/-- `true` when the string contains no newline character. -/
def nlFree (s : String) : Bool :=
  s.toList.all (· ≠ '\n')

/-- Go `strings.Trim(s, " ")`: strip leading and trailing space characters. -/
def trimSpacesGo (s : String) : String :=
  String.mk (((s.toList.dropWhile (· = ' ')).reverse.dropWhile (· = ' ')).reverse)

/-- Lexicographic order on character lists: Go's `<` on strings
(byte-wise over UTF-8) orders code points identically. -/
def lexLess : List Char → List Char → Bool
  | [], [] => false
  | [], _ :: _ => true
  | _ :: _, [] => false
  | c :: cs, d :: ds => if c < d then true else if d < c then false else lexLess cs ds

/-- Go string `<` (kernel-computable). -/
def strLess (a b : String) : Bool := lexLess a.toList b.toList

/-- `strings.HasPrefix pre s` via character lists (kernel-computable,
unlike `String.startsWith`). -/
def hasPre (pre s : String) : Bool :=
  pre.toList.isPrefixOf s.toList

def splitOnCharsGo (sep : List Char) : Nat → List Char → List Char → List (List Char)
  | _, [], acc => [acc.reverse]
  | 0, s, acc => [acc.reverse ++ s]
  | fuel + 1, c :: cs, acc =>
    if sep.isPrefixOf (c :: cs) then
      acc.reverse :: splitOnCharsGo sep fuel ((c :: cs).drop sep.length) []
    else splitOnCharsGo sep fuel cs (c :: acc)

/-- `strings.Split(s, sep)` for non-empty `sep` (also the behaviour of
`String.splitOn`), implemented over character lists so it computes in
the kernel. -/
def splitOnStr (s sep : String) : List String :=
  (splitOnCharsGo sep.toList s.toList.length s.toList []).map String.mk

/-- Numeric value of a run of decimal digit characters. -/
def digitsVal (cs : List Char) : Nat :=
  cs.foldl (fun a c => a * 10 + (c.toNat - 48)) 0

/-! ## `formatBytes`

Embedding of

```go
const ( _ = iota; KB int64 = 1 << (10 * iota); MB; GB; TB; PB; EB )

func formatBytes(i int64) (result string) { ... }
```

Go computes `n := float64(i) / float64(unit)` and formats `n`.  Every
unit is a power of two, so `float64(unit)` is exact and the division
introduces no rounding beyond the one in the `float64(i)` conversion,
which rounds `i` to 53 significant bits, ties to even (`f64ofInt`).
`fmtFixed d num den` then renders the (exactly representable) value
`num/den` the way `fmt.Sprintf("%.0f", ·)` (`d = 0`) or
`fmt.Sprintf("%.01f", ·)` (`d = 1`) renders a float64: round to the
nearest decimal, ties to even.
-/

def KB : Int := 1 <<< 10
def MB : Int := 1 <<< 20
def GB : Int := 1 <<< 30
def TB : Int := 1 <<< 40
def PB : Int := 1 <<< 50
def EB : Int := 1 <<< 60

/-- Round the rational `a / d` (both naturals, `d ≠ 0`) to the nearest
natural, ties to even, as float-to-decimal conversion does. -/
def roundTiesEven (a d : Nat) : Nat :=
  let q := a / d
  let r := a % d
  if 2 * r < d then q
  else if d < 2 * r then q + 1
  else if q % 2 = 0 then q else q + 1

/-- Bit length of a natural below `2 ^ 64` (structural in the fuel). -/
def bitLenAux : Nat → Nat → Nat
  | 0, _ => 0
  | fuel + 1, n => if n = 0 then 0 else bitLenAux fuel (n / 2) + 1

def bitLen (n : Nat) : Nat := bitLenAux 64 n

/-- The `float64(i)` conversion for an `int64` value: round to 53
significant bits, ties to even.  The result is again an integer. -/
def f64ofInt (i : Int) : Int :=
  let n := i.natAbs
  if n ≤ 2 ^ 53 then i
  else
    let k := bitLen n - 53
    let sig := roundTiesEven n (2 ^ k)
    if i < 0 then -((sig * 2 ^ k : Nat) : Int) else ((sig * 2 ^ k : Nat) : Int)

/-- Go `fmt.Sprintf("%.<dec>f", ·)` on the exactly representable
float64 value `num/den`, for `den > 0`, `dec ∈ {0, 1}`. -/
def fmtFixed (dec : Nat) (num den : Int) : String :=
  let scale : Nat := 10 ^ dec
  let m := roundTiesEven (num.natAbs * scale) den.natAbs
  let sign := if num < 0 then "-" else ""
  if dec = 0 then sign ++ toString m
  else sign ++ toString (m / scale) ++ "." ++ toString (m % scale)

/-- The `switch` of `formatBytes`: the unit suffix and divisor chosen for
a value, by strict `>` comparisons from the largest unit down. -/
def fbPick (i : Int) : String × Int :=
  if i > EB then ("E", EB)
  else if i > PB then ("P", PB)
  else if i > TB then ("T", TB)
  else if i > GB then ("G", GB)
  else if i > MB then ("M", MB)
  else if i > KB then ("K", KB)
  else ("", 1)

/-- Number of decimal digits `formatBytes` renders: `"%.0f"` for the
plain-byte case and once the scaled float64 value `n` is at least 10,
`"%.01f"` otherwise.  Go tests `n >= 10` on the float64 quotient,
i.e. `float64(i) >= 10 * unit`. -/
def fbDecimals (i : Int) : Nat :=
  let (eFmt, unit) := fbPick i
  if eFmt = "" then 0
  else if 10 * unit ≤ f64ofInt i then 0
  else 1

/-- `func formatBytes(i int64) (result string)`: the value rendered is
the float64 quotient, so the numerator is `float64(i)`. -/
def formatBytes (i : Int) : String :=
  let (eFmt, unit) := fbPick i
  trimSpacesGo (fmtFixed (fbDecimals i) (f64ofInt i) unit ++ eFmt)

end GoTree

namespace GoTree

/-- The values `KB, MB, GB, TB, PB, EB` of the `formatBytes` unit constants. -/
def fbUnits : List Int :=
  [1024, 1048576, 1073741824, 1099511627776, 1125899906842624, 1152921504606846976]

theorem fbUnits_eq : fbUnits = [KB, MB, GB, TB, PB, EB] := by decide

theorem kb_val : KB = 1024 := by decide

/-- Exhaustive branch analysis of the `formatBytes` unit switch. -/
theorem fbPick_cases (i : Int) :
    (1152921504606846976 < i ∧ fbPick i = ("E", 1152921504606846976)) ∨
    (1125899906842624 < i ∧ i ≤ 1152921504606846976 ∧ fbPick i = ("P", 1125899906842624)) ∨
    (1099511627776 < i ∧ i ≤ 1125899906842624 ∧ fbPick i = ("T", 1099511627776)) ∨
    (1073741824 < i ∧ i ≤ 1099511627776 ∧ fbPick i = ("G", 1073741824)) ∨
    (1048576 < i ∧ i ≤ 1073741824 ∧ fbPick i = ("M", 1048576)) ∨
    (1024 < i ∧ i ≤ 1048576 ∧ fbPick i = ("K", 1024)) ∨
    (i ≤ 1024 ∧ fbPick i = ("", 1)) := by
  have e1 : KB = 1024 := by decide
  have e2 : MB = 1048576 := by decide
  have e3 : GB = 1073741824 := by decide
  have e4 : TB = 1099511627776 := by decide
  have e5 : PB = 1125899906842624 := by decide
  have e6 : EB = 1152921504606846976 := by decide
  unfold fbPick
  rw [e1, e2, e3, e4, e5, e6]
  split_ifs <;> simp_all

theorem fbDecimals_eq (i : Int) :
    fbDecimals i =
      if (fbPick i).1 = "" then 0
      else if 10 * (fbPick i).2 ≤ f64ofInt i then 0 else 1 := by
  unfold fbDecimals
  rcases h : fbPick i with ⟨e, u⟩
  simp [h]

/-- One suffixed branch of the claim-C7 selection property.  The
zero-decimal switch is on the scaled float64 magnitude: `n >= 10`
means `float64(i) >= 10 * unit`. -/
theorem fbSel_branch (i : Int) (suf : String) (unit : Int)
    (hp : fbPick i = (suf, unit)) (hsuf : ¬suf = "") (hlt : unit < i)
    (hunit : unit ∈ fbUnits) (hmax : ∀ u ∈ fbUnits, u < i → u ≤ unit) :
    ∃ s u, fbPick i = (s, u) ∧ ¬s = "" ∧ u < i ∧ u ∈ fbUnits ∧
      (∀ v ∈ fbUnits, v < i → v ≤ u) ∧
      (10 * u ≤ f64ofInt i → fbDecimals i = 0) ∧
      (f64ofInt i < 10 * u → fbDecimals i = 1) := by
  refine ⟨suf, unit, hp, hsuf, hlt, hunit, hmax, ?_, ?_⟩
  · intro h10
    rw [fbDecimals_eq, hp]
    simp only [if_neg hsuf, if_pos h10]
  · intro h10
    rw [fbDecimals_eq, hp]
    simp only [if_neg hsuf, if_neg (by omega : ¬10 * unit ≤ f64ofInt i)]

/-- Claim C7: `formatBytes` selects the largest 1024-based unit strictly less
than the value (strict greater-than comparisons, so a value equal to a unit
boundary such as 1024 is rendered in the next-smaller unit), renders one
decimal digit by default, switches to zero decimals once the scaled magnitude
is at least 10 and for the plain-bytes case; in particular 999 renders as
"999", 1025 as "1.0K", and 10240 as "10K".  The scaled magnitude is the
float64 quotient the program computes, so the switch happens when
`float64(i) >= 10 * unit`: at `10 * 2 ^ 50 - 1` the conversion rounds up to
exactly `10 * PB` and Go renders "10P", and at `33 * 2 ^ 48 + 1` it rounds
down to a value formatting as "8.2P". -/
theorem C7_formatBytes_magnitude :
    (formatBytes 999 = "999" ∧ formatBytes 1025 = "1.0K" ∧
      formatBytes 10240 = "10K" ∧ formatBytes 1024 = "1024") ∧
    (formatBytes (10 * 2 ^ 50 - 1) = "10P" ∧ formatBytes (33 * 2 ^ 48 + 1) = "8.2P"
      ∧ f64ofInt (10 * 2 ^ 50 - 1) = 10 * 2 ^ 50 ∧ f64ofInt (33 * 2 ^ 48 + 1) = 33 * 2 ^ 48) ∧
    (∀ i : Int, i ≤ KB → fbPick i = ("", 1) ∧ fbDecimals i = 0) ∧
    (∀ i : Int, KB < i →
      ∃ s u, fbPick i = (s, u) ∧ ¬s = "" ∧ u < i ∧ u ∈ fbUnits ∧
        (∀ v ∈ fbUnits, v < i → v ≤ u) ∧
        (10 * u ≤ f64ofInt i → fbDecimals i = 0) ∧
        (f64ofInt i < 10 * u → fbDecimals i = 1)) := by
  refine ⟨⟨by decide, by decide, by decide, by decide⟩,
    ⟨by decide, by decide, by decide, by decide⟩, ?_, ?_⟩
  · intro i hi
    rw [kb_val] at hi
    have hp : fbPick i = ("", 1) := by
      rcases fbPick_cases i with h | h | h | h | h | h | h <;>
        first
          | exact h.2
          | (exact absurd hi (by omega))
    exact ⟨hp, by rw [fbDecimals_eq, hp]; simp⟩
  · intro i hi
    rw [kb_val] at hi
    rcases fbPick_cases i with ⟨hlt, hp⟩ | ⟨hlt, hub, hp⟩ | ⟨hlt, hub, hp⟩ |
      ⟨hlt, hub, hp⟩ | ⟨hlt, hub, hp⟩ | ⟨hlt, hub, hp⟩ | ⟨hle, hp⟩
    · exact fbSel_branch i "E" 1152921504606846976 hp (by decide) hlt (by decide)
        (by intro u hu hui; fin_cases hu <;> omega)
    · exact fbSel_branch i "P" 1125899906842624 hp (by decide) hlt (by decide)
        (by intro u hu hui; fin_cases hu <;> omega)
    · exact fbSel_branch i "T" 1099511627776 hp (by decide) hlt (by decide)
        (by intro u hu hui; fin_cases hu <;> omega)
    · exact fbSel_branch i "G" 1073741824 hp (by decide) hlt (by decide)
        (by intro u hu hui; fin_cases hu <;> omega)
    · exact fbSel_branch i "M" 1048576 hp (by decide) hlt (by decide)
        (by intro u hu hui; fin_cases hu <;> omega)
    · exact fbSel_branch i "K" 1024 hp (by decide) hlt (by decide)
        (by intro u hu hui; fin_cases hu <;> omega)
    · exact absurd hi (by omega)

theorem C7_formatBytes_magnitude_witness :
    KB < (1025 : Int) ∧ (∃ s u, fbPick 1025 = (s, u) ∧ ¬s = "" ∧ u < 1025 ∧ u ∈ fbUnits ∧
      (∀ v ∈ fbUnits, v < 1025 → v ≤ u) ∧
      (10 * u ≤ f64ofInt 1025 → fbDecimals 1025 = 0) ∧
      (f64ofInt 1025 < 10 * u → fbDecimals 1025 = 1)) ∧
      fbPick 1000 = ("", 1) ∧ fbDecimals 1000 = 0 :=
  ⟨by decide,
   C7_formatBytes_magnitude.2.2.2 1025 (by decide),
   C7_formatBytes_magnitude.2.2.1 1000 (by decide)⟩

end GoTree

namespace GoTree

/-! ## Data model

`FileInfo` models the parts of `os.FileInfo` the engine reads: `Name()`,
`Size()`, `IsDir()`, `Mode()&os.ModeSymlink`, `Mode().String()`,
`ModTime()` (an instant for sorting, its year, and its two rendered
forms), and the platform stat handle used by `getStat` and `CTimeSort`
(`hasStat` plays the role of the `*syscall.Stat_t` type assertion
succeeding).  `linkTarget` models what `os.Readlink` would return for
the entry (`none`: `Readlink`/`EvalSymlinks` fail). -/
structure FileInfo where
  name : String
  size : Int
  isDir : Bool
  isSymlink : Bool
  modeStr : String
  mtime : Int
  mtimeYear : Int
  mtimeHM : String
  mtimeYr : String
  hasStat : Bool
  inode : Int
  device : Int
  uid : Int
  gid : Int
  ctime : Int
  linkTarget : Option String
  deriving Repr, DecidableEq

/-- `type Node struct { os.FileInfo; path string; depth int; err error;
nodes Nodes; vpaths map[string]bool }`.  The embedded nilable
`os.FileInfo` is `fi : Option FileInfo`; the error is its message text;
the shared `vpaths` map is threaded through the functions as explicit
state instead of being stored in every node (the code shares one map by
reference across the whole traversal). -/
structure Node where
  path : String
  depth : Nat
  fi : Option FileInfo
  err : Option String
  nodes : List Node
  deriving Repr

/-- `type Options struct`: the configuration fields read by the engine.
`Fs`, `OutFile`, and `Color` are modelled separately (`Env` below);
`Now time.Time` keeps only its year, with `none` for the zero value. -/
structure Options where
  All : Bool := false
  DirsOnly : Bool := false
  FullPath : Bool := false
  IgnoreCase : Bool := false
  FollowLink : Bool := false
  DeepLevel : Int := 0
  Pattern : String := ""
  IPattern : String := ""
  MatchDirs : Bool := false
  Prune : Bool := false
  Contents : Bool := false
  ByteSize : Bool := false
  UnitSize : Bool := false
  FileMode : Bool := false
  ShowUid : Bool := false
  ShowGid : Bool := false
  LastMod : Bool := false
  Quotes : Bool := false
  Inodes : Bool := false
  Device : Bool := false
  NoSort : Bool := false
  VerSort : Bool := false
  ModSort : Bool := false
  DirSort : Bool := false
  NameSort : Bool := false
  SizeSort : Bool := false
  CTimeSort : Bool := false
  ReverSort : Bool := false
  NoIndent : Bool := false
  Colorize : Bool := false
  Now : Option Int := none

/-- `node.Name()`: the embedded `os.FileInfo`'s name.  The code only calls
it on nodes whose `FileInfo` is set (a nil receiver would panic). -/
def Node.name (n : Node) : String :=
  (n.fi.map FileInfo.name).getD ""

/-- `node.IsDir()` on the embedded `os.FileInfo` (only called when set). -/
def Node.isDir (n : Node) : Bool :=
  (n.fi.map FileInfo.isDir).getD false

/-- `node.Size()` on the embedded `os.FileInfo` (only called when set). -/
def Node.size (n : Node) : Int :=
  (n.fi.map FileInfo.size).getD 0

end GoTree

namespace GoTree

/-! ## The regular-expression engine

The `match` method delegates to Go's `regexp` package, which is outside
the repository.  It is modelled here by a small concrete engine over the
grammar `alt := cat (| cat)*`, `cat := atom [*] ...`, `atom := (alt)`,
`.` or a literal character, with the `(?i)` prefix the code prepends for
case-insensitive matching handled as an engine flag.  `FindString`
semantics follow Go: candidate start positions are tried left to right
and the first position with any match wins, alternatives prefer their
left branch, and `*` is greedy; a star iteration must consume input,
which does not change the matched language.  An invalid pattern (e.g.
an unbalanced parenthesis or a dangling `*`) fails to compile. -/

inductive Regex where
  | eps
  | ch (c : Char)
  | dot
  | cat (r s : Regex)
  | alt (r s : Regex)
  | star (r : Regex)
  deriving Repr, DecidableEq

/-- Parser for the regex subset.  `parseAtom`/`parseCat`/`parseAlt`
return the parsed regex and the unconsumed input; `fuel` only bounds the
recursion and is chosen large enough at the entry point. -/
def parseAtom (parseA : List Char → Option (Regex × List Char)) :
    List Char → Option (Regex × List Char)
  | [] => none
  | c :: cs =>
    if c = '(' then
      match parseA cs with
      | some (r, ')' :: rest) => some (r, rest)
      | _ => none
    else if c = ')' ∨ c = '|' ∨ c = '*' then none
    else if c = '.' then some (Regex.dot, cs)
    else some (Regex.ch c, cs)

mutual

def parseCat (fuel : Nat) (cs : List Char) : Option (Regex × List Char) :=
  match fuel with
  | 0 => none
  | fuel + 1 =>
    match parseAtom (parseAlt fuel) cs with
    | none => some (Regex.eps, cs)
    | some (r, rest) =>
      match rest with
      | '*' :: rest2 =>
        match parseCat fuel rest2 with
        | some (s, rest3) => some (Regex.cat (Regex.star r) s, rest3)
        | none => none
      | _ =>
        match parseCat fuel rest with
        | some (Regex.eps, rest3) => some (r, rest3)
        | some (s, rest3) => some (Regex.cat r s, rest3)
        | none => none

def parseAlt (fuel : Nat) (cs : List Char) : Option (Regex × List Char) :=
  match fuel with
  | 0 => none
  | fuel + 1 =>
    match parseCat fuel cs with
    | none => none
    | some (r, '|' :: rest) =>
      match parseAlt fuel rest with
      | some (s, rest2) => some (Regex.alt r s, rest2)
      | none => none
    | some (r, rest) => some (r, rest)

end

/-- `regexp.Compile` model: parse the whole pattern, with a leading
`(?i)` recognized as the case-insensitivity flag. -/
def compileRe (pattern : String) : Option (Bool × Regex) :=
  let cs := pattern.toList
  let (ci, body) :=
    match cs with
    | '(' :: '?' :: 'i' :: ')' :: rest => (true, rest)
    | _ => (false, cs)
  match parseAlt (body.length * 2 + 4) body with
  | some (r, []) => some (ci, r)
  | _ => none

/-- Character comparison under the optional case-folding flag. -/
def canonChar (ci : Bool) (c : Char) : Char :=
  if ci then c.toLower else c

/-- All ways the regex can match a prefix of `cs`, as the list of
unconsumed suffixes in backtracking preference order (alternation
prefers left, star is greedy).  A star iteration must consume at least
one character.  `fuel` bounds the star recursion and is chosen
sufficiently large by `findString`. -/
def regexSize : Regex → Nat
  | Regex.eps => 1
  | Regex.ch _ => 1
  | Regex.dot => 1
  | Regex.cat r s => regexSize r + regexSize s + 1
  | Regex.alt r s => regexSize r + regexSize s + 1
  | Regex.star r => regexSize r + 1

def matchList (ci : Bool) : Nat → Regex → List Char → List (List Char)
  | 0, _, _ => []
  | _ + 1, Regex.eps, cs => [cs]
  | _ + 1, Regex.ch _, [] => []
  | _ + 1, Regex.ch c, d :: ds => if canonChar ci d = canonChar ci c then [ds] else []
  | _ + 1, Regex.dot, [] => []
  | _ + 1, Regex.dot, d :: ds => if d = '\n' then [] else [ds]
  | fuel + 1, Regex.cat r s, cs =>
    (matchList ci fuel r cs).flatMap (matchList ci fuel s)
  | fuel + 1, Regex.alt r s, cs => matchList ci fuel r cs ++ matchList ci fuel s cs
  | fuel + 1, Regex.star r, cs =>
    ((matchList ci fuel r cs).filter (fun rem => rem.length < cs.length)).flatMap
      (matchList ci fuel (Regex.star r)) ++ [cs]

/-- Fuel that is ample for `matchList` on this input. -/
def fuelFor (re : Regex) (cs : List Char) : Nat :=
  (cs.length + 1) * (regexSize re + 1)

/-- `re.FindString(s)` model: try start positions left to right; at the
first position where the regex matches, return the preferred (first)
match; with no match anywhere, return the empty string — Go's
`FindString` conflates "no match" and "empty match" exactly like this. -/
def scanFind (ci : Bool) (re : Regex) : List Char → String
  | [] => ""
  | c :: ts =>
    match matchList ci (fuelFor re (c :: ts)) re (c :: ts) with
    | rem :: _ => String.mk ((c :: ts).take ((c :: ts).length - rem.length))
    | [] => scanFind ci re ts

def findString (ci : Bool) (re : Regex) (s : String) : String :=
  scanFind ci re s.toList

/-- `func (node *Node) match(pattern string, opt *Options) bool`. -/
def Node.matchPat (node : Node) (pattern : String) (opt : Options) : Bool :=
  let pre := if opt.IgnoreCase then "(?i)" else ""
  let search := if pattern.toList.contains '*' then node.path else node.name
  match compileRe (pre ++ pattern) with
  | none => false
  | some (ci, re) => findString ci re search ≠ ""
end GoTree

namespace GoTree

/-- Claim C6: the matcher evaluates the configured pattern as a regular
expression against the entry's base name, unless the pattern contains a
literal `*` character, in which case the full accumulated path is
matched instead; a pattern that fails to compile is reported as "no
match" for every candidate (the matcher is a total boolean function and
never aborts the walk). -/
theorem C6_matcher_candidate_and_invalid :
    (∀ (node : Node) (pattern : String) (opt : Options),
      compileRe ((if opt.IgnoreCase then "(?i)" else "") ++ pattern) = none →
        node.matchPat pattern opt = false) ∧
    (∀ (node : Node) (pattern : String) (opt : Options) (ci : Bool) (re : Regex),
      pattern.toList.contains '*' = true →
      compileRe ((if opt.IgnoreCase then "(?i)" else "") ++ pattern) = some (ci, re) →
        (node.matchPat pattern opt = true ↔ findString ci re node.path ≠ "")) ∧
    (∀ (node : Node) (pattern : String) (opt : Options) (ci : Bool) (re : Regex),
      pattern.toList.contains '*' = false →
      compileRe ((if opt.IgnoreCase then "(?i)" else "") ++ pattern) = some (ci, re) →
        (node.matchPat pattern opt = true ↔ findString ci re node.name ≠ "")) := by
  refine ⟨?_, ?_, ?_⟩
  · intro node pattern opt h
    simp only [Node.matchPat, h]
  · intro node pattern opt ci re hstar h
    simp only [Node.matchPat, h, hstar]
    simp
  · intro node pattern opt ci re hstar h
    simp only [Node.matchPat, h, hstar]
    simp

/-- A concrete node used to witness the matcher claims. -/
def mNodeAbc : Node :=
  { path := "abc", depth := 1,
    fi := some { name := "abc", size := 0, isDir := false, isSymlink := false,
                 modeStr := "", mtime := 0, mtimeYear := 0, mtimeHM := "",
                 mtimeYr := "", hasStat := false, inode := 0, device := 0,
                 uid := 0, gid := 0, ctime := 0, linkTarget := none },
    err := none, nodes := [] }

theorem C6_matcher_candidate_and_invalid_witness :
    mNodeAbc.matchPat "(" {} = false ∧
      (mNodeAbc.matchPat "b." {} = true ↔
        findString false (Regex.cat (Regex.ch 'b') Regex.dot) mNodeAbc.name ≠ "") :=
  ⟨C6_matcher_candidate_and_invalid.1 mNodeAbc "(" {} (by decide),
   C6_matcher_candidate_and_invalid.2.2 mNodeAbc "b." {} false
     (Regex.cat (Regex.ch 'b') Regex.dot) (by decide) (by decide)⟩

/-- Claim C10: a match is recognized only when the found string is
non-empty, so whenever the regular expression's leftmost match in the
candidate text is the empty string (`FindString` returns `""`), the
matcher reports "no match" — e.g. `x*` against a candidate containing
no `x`. -/
theorem C10_empty_leftmost_match_is_no_match :
    ∀ (node : Node) (pattern : String) (opt : Options) (ci : Bool) (re : Regex),
      compileRe ((if opt.IgnoreCase then "(?i)" else "") ++ pattern) = some (ci, re) →
      findString ci re
        (if pattern.toList.contains '*' then node.path else node.name) = "" →
      node.matchPat pattern opt = false := by
  intro node pattern opt ci re hc hf
  simp only [Node.matchPat, hc]
  rcases h : pattern.toList.contains '*' with _ | _ <;>
    rw [h] at hf <;> simp_all

theorem C10_empty_leftmost_match_is_no_match_witness :
    compileRe "x*" = some (false, Regex.cat (Regex.star (Regex.ch 'x')) Regex.eps) ∧
    findString false (Regex.cat (Regex.star (Regex.ch 'x')) Regex.eps) "abc" = "" ∧
    mNodeAbc.matchPat "x*" {} = false :=
  ⟨by decide, by decide,
   C10_empty_leftmost_match_is_no_match mNodeAbc "x*" {} false
     (Regex.cat (Regex.star (Regex.ch 'x')) Regex.eps) (by decide) (by decide)⟩

end GoTree

namespace GoTree

/-! ## The sorter

`node.sort` selects a comparator (`SortFunc`) and hands the children to
Go's `sort.Sort`, optionally through `sort.Reverse`.  The comparators
(`sort.go` of the repository) and the `NaturalLess` helper are modelled
from the spec (§4.2): every comparator first applies the nil-`FileInfo`
guard `if f1 == nil || f2 == nil { return f2 == nil }` (visible in the
in-src `CTimeSort` platform files and pinned by the sort test
expectations), then compares its key.  `sort.Sort` itself (Go standard
library, `pdqsort` since Go 1.19) is transcribed below over index-based
list states whose only mutation is `swapL`. -/

def SortFunc : Type := Option FileInfo → Option FileInfo → Bool

/-- Modelled from the spec: `ModSort` of the repository's `sort.go`
(by-modification-time comparator, nil guard first). -/
def ModSort : SortFunc
  | none, f2 => f2.isNone
  | some _, none => true
  | some a, some b => decide (a.mtime < b.mtime)

/-- `CTimeSort` from the platform files: nil guard, then fall back to
`ModSort` unless both stat handles are available, else compare the
status-change seconds. -/
def CTimeSort : SortFunc
  | none, f2 => f2.isNone
  | some _, none => true
  | some a, some b =>
    if a.hasStat && b.hasStat then decide (a.ctime < b.ctime)
    else ModSort (some a) (some b)

/-- Modelled from the spec: `DirSort` (directories before files). -/
def DirSort : SortFunc
  | none, f2 => f2.isNone
  | some _, none => true
  | some a, some b => a.isDir && !b.isDir

/-- Modelled from the spec: `SizeSort`. -/
def SizeSort : SortFunc
  | none, f2 => f2.isNone
  | some _, none => true
  | some a, some b => decide (a.size < b.size)

/-- Modelled from the spec: `NameSort` (lexicographic; Go's byte-wise
`<` on UTF-8 strings orders code points exactly like Lean's `<`). -/
def NameSort : SortFunc
  | none, f2 => f2.isNone
  | some _, none => true
  | some a, some b => strLess a.name b.name

/-- Modelled from the spec: numeric-aware alphanumeric comparison used
by `VerSort` (digit runs compare by value, otherwise by character). -/
def naturalLess (fuel : Nat) (s1 s2 : List Char) : Bool :=
  match fuel, s1, s2 with
  | 0, _, _ => false
  | _ + 1, [], [] => false
  | _ + 1, [], _ :: _ => true
  | _ + 1, _ :: _, [] => false
  | fuel + 1, c :: cs, d :: ds =>
    if c.isDigit && d.isDigit then
      let r1 := (c :: cs).takeWhile Char.isDigit
      let r2 := (d :: ds).takeWhile Char.isDigit
      let n1 := digitsVal r1
      let n2 := digitsVal r2
      if n1 ≠ n2 then decide (n1 < n2)
      else naturalLess fuel ((c :: cs).drop r1.length) ((d :: ds).drop r2.length)
    else if c ≠ d then decide (c < d)
    else naturalLess fuel cs ds

/-- Modelled from the spec: `VerSort` (by-version comparator). -/
def VerSort : SortFunc
  | none, f2 => f2.isNone
  | some _, none => true
  | some a, some b => naturalLess (a.name.length + 1) a.name.toList b.name.toList

instance : Inhabited Node := ⟨⟨"", 0, none, none, []⟩⟩

/-- `data.Swap(i, j)` on a list state.  The indices the sort produces
are always in range (Go would panic otherwise); an out-of-range pair is
mapped to the identity so that the function istotal. -/
def swapL [Inhabited α] (l : List α) (i j : Nat) : List α :=
  if i < l.length ∧ j < l.length then
    (l.set i (l.getD j default)).set j (l.getD i default)
  else l

/-- `math/bits.Len` on a natural number. -/
def bitsLen (n : Nat) : Nat :=
  if n = 0 then 0 else Nat.log2 n + 1

/-- The xorshift step of `sort`'s deterministic pattern-breaking PRNG. -/
def xorshiftNext (r : Nat) : Nat :=
  let r := (r ^^^ (r <<< 13)) % (2 ^ 64)
  let r := r ^^^ (r >>> 7)
  (r ^^^ (r <<< 17)) % (2 ^ 64)

/-- `nextPowerOfTwo` from the sort package. -/
def nextPowerOfTwo (length : Nat) : Nat :=
  1 <<< bitsLen length

end GoTree

namespace GoTree

/-- `data[i]` read on the list state. -/
def gl [Inhabited α] (l : List α) (i : Nat) : α := l.getD i default

inductive SortedHint where
  | unknown
  | increasing
  | decreasing
  deriving Repr, DecidableEq

section GoSortImpl

variable {α : Type} [Inhabited α] (less : α → α → Bool)

/-- Inner loop of `insertionSort`: bubble the element now at `j+1` left
while `j+1 > a` and it is less than its predecessor. -/
def bubbleGo (a : Nat) : Nat → List α → List α
  | 0, l => l
  | j + 1, l =>
    if (decide (a ≤ j)) && less (gl l (j + 1)) (gl l j) then
      bubbleGo a j (swapL l (j + 1) j)
    else l

def insertionGoAux (a : Nat) : Nat → Nat → List α → List α
  | 0, _, l => l
  | steps + 1, i, l => insertionGoAux a steps (i + 1) (bubbleGo less a i l)

/-- `func insertionSort(data Interface, a, b int)`. -/
def insertionSortGo (a b : Nat) (l : List α) : List α :=
  insertionGoAux less a (b - (a + 1)) (a + 1) l

/-- `func siftDown(data Interface, lo, hi, first int)`; the fuel only
bounds the descent and is passed ample at every call site. -/
def siftDownGo (hi first : Nat) : Nat → Nat → List α → List α
  | 0, _, l => l
  | fuel + 1, root, l =>
    let child := 2 * root + 1
    if hi ≤ child then l
    else
      let child :=
        if (decide (child + 1 < hi)) &&
            less (gl l (first + child)) (gl l (first + child + 1)) then
          child + 1
        else child
      if !less (gl l (first + root)) (gl l (first + child)) then l
      else siftDownGo hi first fuel child (swapL l (first + root) (first + child))

def heapBuildGo (hi first : Nat) : Nat → List α → List α
  | 0, l => l
  | i + 1, l => heapBuildGo hi first i (siftDownGo less hi first (hi + 1) i l)

def heapPopGo (first : Nat) : Nat → List α → List α
  | 0, l => l
  | i + 1, l => heapPopGo first i (siftDownGo less i first (i + 1) 0 (swapL l first (first + i)))

/-- `func heapSort(data Interface, a, b int)`. -/
def heapSortGo (a b : Nat) (l : List α) : List α :=
  let hi := b - a
  heapPopGo less a hi (heapBuildGo less hi a ((hi - 1) / 2 + 1) l)

/-- `func reverseRange(data Interface, a, b int)`. -/
def reverseRangeGo : Nat → Nat → Nat → List α → List α
  | 0, _, _, l => l
  | fuel + 1, i, j, l =>
    if i < j then reverseRangeGo fuel (i + 1) (j - 1) (swapL l i j) else l

/-- `func breakPatterns(data Interface, a, b int)`: three deterministic
xorshift-driven swaps when the range has at least 8 elements. -/
def breakPatternsGo (a b : Nat) (l : List α) : List α :=
  let length := b - a
  if length ≥ 8 then
    let modulus := nextPowerOfTwo length
    let idx := a + (length / 4) * 2 - 1
    let r1 := xorshiftNext length
    let o1 := r1 &&& (modulus - 1)
    let o1 := if o1 ≥ length then o1 - length else o1
    let l := swapL l (idx - 1) (a + o1)
    let r2 := xorshiftNext r1
    let o2 := r2 &&& (modulus - 1)
    let o2 := if o2 ≥ length then o2 - length else o2
    let l := swapL l idx (a + o2)
    let r3 := xorshiftNext r2
    let o3 := r3 &&& (modulus - 1)
    let o3 := if o3 ≥ length then o3 - length else o3
    swapL l (idx + 1) (a + o3)
  else l

/-- `func order2(data Interface, a, b int, swaps *int) (int, int)`. -/
def order2Go (l : List α) (a b swaps : Nat) : Nat × Nat × Nat :=
  if less (gl l b) (gl l a) then (b, a, swaps + 1) else (a, b, swaps)

/-- `func median(data Interface, a, b, c int, swaps *int) int`. -/
def medianGo (l : List α) (a b c swaps : Nat) : Nat × Nat :=
  let (a, b, swaps) := order2Go less l a b swaps
  let (b, _, swaps) := order2Go less l b c swaps
  let (_, b, swaps) := order2Go less l a b swaps
  (b, swaps)

/-- `func medianAdjacent(data Interface, a int, swaps *int) int`. -/
def medianAdjacentGo (l : List α) (a swaps : Nat) : Nat × Nat :=
  medianGo less l (a - 1) a (a + 1) swaps

/-- `func choosePivot(data Interface, a, b int) (pivot int, hint sortedHint)`. -/
def choosePivotGo (l : List α) (a b : Nat) : Nat × SortedHint :=
  let len := b - a
  let i := a + len / 4 * 1
  let j := a + len / 4 * 2
  let k := a + len / 4 * 3
  let (j, swaps) :=
    if len ≥ 8 then
      if len ≥ 50 then
        let (i, s1) := medianAdjacentGo less l i 0
        let (j, s2) := medianAdjacentGo less l j s1
        let (k, s3) := medianAdjacentGo less l k s2
        medianGo less l i j k s3
      else medianGo less l i j k 0
    else (j, 0)
  if swaps = 0 then (j, SortedHint.increasing)
  else if swaps = 12 then (j, SortedHint.decreasing)
  else (j, SortedHint.unknown)

/-- `for i <= j && data.Less(i, a) { i++ }`. -/
def scanLtGo (l : List α) (a : Nat) : Nat → Nat → Nat → Nat
  | 0, i, _ => i
  | fuel + 1, i, j =>
    if (decide (i ≤ j)) && less (gl l i) (gl l a) then scanLtGo l a fuel (i + 1) j else i

/-- `for i <= j && !data.Less(j, a) { j-- }`. -/
def scanGeGo (l : List α) (a : Nat) : Nat → Nat → Nat → Nat
  | 0, _, j => j
  | fuel + 1, i, j =>
    if (decide (i ≤ j)) && !less (gl l j) (gl l a) then scanGeGo l a fuel i (j - 1) else j

def partLoopGo (a : Nat) : Nat → Nat → Nat → List α → Nat × List α
  | 0, _, j, l => (j, l)
  | fuel + 1, i, j, l =>
    let i := scanLtGo less l a (j + 2) i j
    let j := scanGeGo less l a (j + 2) i j
    if i > j then (j, l)
    else partLoopGo a fuel (i + 1) (j - 1) (swapL l i j)

/-- `func partition(data Interface, a, b, pivot int) (newpivot int, alreadyPartitioned bool)`. -/
def partitionGo (a b pivot : Nat) (l : List α) : Nat × Bool × List α :=
  let l := swapL l a pivot
  let i := a + 1
  let j := b - 1
  let i := scanLtGo less l a (j + 2) i j
  let j := scanGeGo less l a (j + 2) i j
  if i > j then (j, true, swapL l j a)
  else
    let l := swapL l i j
    let pr := partLoopGo less a (b + 2) (i + 1) (j - 1) l
    (pr.1, false, swapL pr.2 pr.1 a)

/-- `for i <= j && !data.Less(a, i) { i++ }`. -/
def scanEqUpGo (l : List α) (a : Nat) : Nat → Nat → Nat → Nat
  | 0, i, _ => i
  | fuel + 1, i, j =>
    if (decide (i ≤ j)) && !less (gl l a) (gl l i) then scanEqUpGo l a fuel (i + 1) j else i

/-- `for i <= j && data.Less(a, j) { j-- }`. -/
def scanEqDownGo (l : List α) (a : Nat) : Nat → Nat → Nat → Nat
  | 0, _, j => j
  | fuel + 1, i, j =>
    if (decide (i ≤ j)) && less (gl l a) (gl l j) then scanEqDownGo l a fuel i (j - 1) else j

def partEqLoopGo (a : Nat) : Nat → Nat → Nat → List α → Nat × List α
  | 0, i, _, l => (i, l)
  | fuel + 1, i, j, l =>
    let i := scanEqUpGo less l a (j + 2) i j
    let j := scanEqDownGo less l a (j + 2) i j
    if i > j then (i, l)
    else partEqLoopGo a fuel (i + 1) (j - 1) (swapL l i j)

/-- `func partitionEqual(data Interface, a, b, pivot int) (newpivot int)`. -/
def partitionEqualGo (a b pivot : Nat) (l : List α) : Nat × List α :=
  let l := swapL l a pivot
  partEqLoopGo less a (b + 2) (a + 1) (b - 1) l

/-- `for i < b && !data.Less(i, i-1) { i++ }`. -/
def scanSortedGo (l : List α) (b : Nat) : Nat → Nat → Nat
  | 0, i => i
  | fuel + 1, i =>
    if (decide (i < b)) && !less (gl l i) (gl l (i - 1)) then scanSortedGo l b fuel (i + 1)
    else i

/-- Left shift loop of `partialInsertionSort`. -/
def shiftLeftGo : Nat → List α → List α
  | 0, l => l
  | j + 1, l =>
    if !less (gl l (j + 1)) (gl l j) then l
    else shiftLeftGo j (swapL l (j + 1) j)

/-- Right shift loop of `partialInsertionSort`. -/
def shiftRightGo (b : Nat) : Nat → Nat → List α → List α
  | 0, _, l => l
  | fuel + 1, j, l =>
    if decide (j < b) then
      if !less (gl l j) (gl l (j - 1)) then l
      else shiftRightGo b fuel (j + 1) (swapL l j (j - 1))
    else l

def partialInsAuxGo (a b : Nat) : Nat → Nat → List α → Bool × List α
  | 0, _, l => (false, l)
  | steps + 1, i, l =>
    let i := scanSortedGo less l b (b + 2) i
    if i = b then (true, l)
    else if b - a < 50 then (false, l)
    else
      let l := swapL l i (i - 1)
      let l := if i - a ≥ 2 then shiftLeftGo less (i - 1) l else l
      let l := if b - i ≥ 2 then shiftRightGo less b (b + 2) (i + 1) l else l
      partialInsAuxGo a b steps i l

/-- `func partialInsertionSort(data Interface, a, b int) bool` (maxSteps 5,
shortestShifting 50). -/
def partialInsertionSortGo (a b : Nat) (l : List α) : Bool × List α :=
  partialInsAuxGo less a b 5 (a + 1) l

/-- The partitioning tail of one `pdqsort` loop iteration.  `sr` is the
recursive range sort (`pdqsort` at the remaining fuel). -/
def pdqTailGo (sr : Nat → Nat → Nat → Bool → Bool → List α → List α)
    (a b limit : Nat) (wasB wasP : Bool) (pivot : Nat) (l : List α) : List α :=
  if a > 0 ∧ !less (gl l (a - 1)) (gl l pivot) then
    let pe := partitionEqualGo less a b pivot l
    sr pe.1 b limit wasB wasP pe.2
  else
    let pt := partitionGo less a b pivot l
    let leftLen := pt.1 - a
    let rightLen := b - pt.1
    let wasB2 := decide (min leftLen rightLen ≥ (b - a) / 8)
    if leftLen < rightLen then
      sr (pt.1 + 1) b limit wasB2 pt.2.1 (sr a pt.1 limit true true pt.2.2)
    else
      sr a pt.1 limit wasB2 pt.2.1 (sr (pt.1 + 1) b limit true true pt.2.2)

/-- One `pdqsort` loop iteration past the insertion/heap dispatch:
pattern breaking, pivot choice, the likely-sorted check, then the
partitioning tail. -/
def pdqIterGo (sr : Nat → Nat → Nat → Bool → Bool → List α → List α)
    (a b limit : Nat) (wasB wasP : Bool) (l : List α) : List α :=
  let l := if !wasB then breakPatternsGo a b l else l
  let limit := if !wasB then limit - 1 else limit
  let pv := choosePivotGo less l a b
  let pivot := if pv.2 = SortedHint.decreasing then (b - 1) - (pv.1 - a) else pv.1
  let hint := if pv.2 = SortedHint.decreasing then SortedHint.increasing else pv.2
  let l := if pv.2 = SortedHint.decreasing then reverseRangeGo b a (b - 1) l else l
  let pi :=
    if wasB ∧ wasP ∧ hint = SortedHint.increasing then partialInsertionSortGo less a b l
    else (false, l)
  if pi.1 then pi.2
  else pdqTailGo less sr a b limit wasB wasP pivot pi.2

/-- `func pdqsort(data Interface, a, b, limit int)`: the driving loop.
Fuel decreases at every loop iteration and recursive call; the entry
point passes ample fuel. -/
def pdqsortGo : Nat → Nat → Nat → Nat → Bool → Bool → List α → List α
  | 0, _, _, _, _, _, l => l
  | fuel + 1, a, b, limit, wasB, wasP, l =>
    if b - a ≤ 12 then insertionSortGo less a b l
    else if limit = 0 then heapSortGo less a b l
    else pdqIterGo less (pdqsortGo fuel) a b limit wasB wasP l

/-- `func Sort(data Interface)`: nothing for lengths below 2, otherwise
`pdqsort` over the whole slice with `limit = bits.Len(uint(n))`. -/
def goSortSlice (l : List α) : List α :=
  let n := l.length
  if n ≤ 1 then l
  else pdqsortGo less ((n + 2) * (n + 2)) 0 n (bitsLen n) true true l

end GoSortImpl

/-- `func (node *Node) sort(opts *Options)`: pick the active comparator
by the fixed priority order, default `NameSort`; `ReverSort` wraps the
data in `sort.Reverse`, which transposes the index pair given to `Less`
— element-wise, the flipped comparator. -/
def sortNodes (opts : Options) (nodes : List Node) : List Node :=
  let fn : Option SortFunc :=
    if opts.ModSort then some ModSort
    else if opts.CTimeSort then some CTimeSort
    else if opts.DirSort then some DirSort
    else if opts.VerSort then some VerSort
    else if opts.SizeSort then some SizeSort
    else if opts.NameSort then some NameSort
    else some NameSort
  match fn with
  | some f =>
    if opts.ReverSort then goSortSlice (fun n1 n2 => f n2.fi n1.fi) nodes
    else goSortSlice (fun n1 n2 => f n1.fi n2.fi) nodes
  | none => nodes

end GoTree

namespace GoTree

/-! ## Permutation lemmas: every sort routine only swaps elements -/

theorem cons_set_perm [Inhabited α] :
    ∀ (xs : List α) (j : Nat), j < xs.length →
      ∀ x : α, List.Perm (xs.getD j default :: xs.set j x) (x :: xs)
  | [], j, hj, x => by simp at hj
  | y :: ys, 0, _, x => by
    simpa using List.Perm.swap x y ys
  | y :: ys, j + 1, hj, x => by
    have ih := cons_set_perm ys j (by simpa using hj) x
    have h1 : List.Perm (ys.getD j default :: y :: ys.set j x) (y :: ys.getD j default :: ys.set j x) :=
      List.Perm.swap y (ys.getD j default) (ys.set j x)
    have h2 : List.Perm (y :: ys.getD j default :: ys.set j x) (y :: x :: ys) := ih.cons y
    have h3 : List.Perm (y :: x :: ys) (x :: y :: ys) := List.Perm.swap x y ys
    simpa using (h1.trans h2).trans h3

theorem swapL_perm [Inhabited α] (l : List α) (i j : Nat) : List.Perm (swapL l i j) l := by
  unfold swapL
  split_ifs with h
  · obtain ⟨hi, hj⟩ := h
    induction l generalizing i j with
    | nil => simp at hi
    | cons x xs ih =>
      match i, j with
      | 0, 0 => simp
      | 0, k + 1 =>
        have hk : k < xs.length := by simpa using hj
        simpa using cons_set_perm xs k hk x
      | k + 1, 0 =>
        have hk : k < xs.length := by simpa using hi
        simpa using cons_set_perm xs k hk x
      | k + 1, m + 1 =>
        have hk : k < xs.length := by simpa using hi
        have hm : m < xs.length := by simpa using hj
        simpa using (ih k m hk hm).cons x
  · exact List.Perm.refl l

section GoSortPerm

variable {α : Type} [Inhabited α] (less : α → α → Bool)

theorem bubbleGo_perm (a : Nat) : ∀ (j : Nat) (l : List α), List.Perm (bubbleGo less a j l) l := by
  intro j
  induction j with
  | zero => intro l; simp [bubbleGo]
  | succ j ih =>
    intro l
    simp only [bubbleGo]
    split
    · exact (ih _).trans (swapL_perm _ _ _)
    · exact List.Perm.refl l

theorem insertionGoAux_perm (a : Nat) :
    ∀ (steps i : Nat) (l : List α), List.Perm (insertionGoAux less a steps i l) l := by
  intro steps
  induction steps with
  | zero => intro i l; simp [insertionGoAux]
  | succ s ih =>
    intro i l
    simp only [insertionGoAux]
    exact (ih _ _).trans (bubbleGo_perm less a i l)

theorem insertionSortGo_perm (a b : Nat) (l : List α) : List.Perm (insertionSortGo less a b l) l :=
  insertionGoAux_perm less a _ _ l

theorem siftDownGo_perm (hi first : Nat) :
    ∀ (fuel root : Nat) (l : List α), List.Perm (siftDownGo less hi first fuel root l) l := by
  intro fuel
  induction fuel with
  | zero => intro root l; simp [siftDownGo]
  | succ f ih =>
    intro root l
    simp only [siftDownGo]
    split
    · exact List.Perm.refl l
    · split <;> split <;>
        first
          | exact List.Perm.refl l
          | exact (ih _ _).trans (swapL_perm _ _ _)

theorem heapBuildGo_perm (hi first : Nat) :
    ∀ (c : Nat) (l : List α), List.Perm (heapBuildGo less hi first c l) l := by
  intro c
  induction c with
  | zero => intro l; simp [heapBuildGo]
  | succ c ih =>
    intro l
    simp only [heapBuildGo]
    exact (ih _).trans (siftDownGo_perm less hi first _ _ l)

theorem heapPopGo_perm (first : Nat) :
    ∀ (c : Nat) (l : List α), List.Perm (heapPopGo less first c l) l := by
  intro c
  induction c with
  | zero => intro l; simp [heapPopGo]
  | succ c ih =>
    intro l
    simp only [heapPopGo]
    exact (ih _).trans ((siftDownGo_perm less _ _ _ _ _).trans (swapL_perm _ _ _))

theorem heapSortGo_perm (a b : Nat) (l : List α) : List.Perm (heapSortGo less a b l) l := by
  simp only [heapSortGo]
  exact (heapPopGo_perm less _ _ _).trans (heapBuildGo_perm less _ _ _ _)

theorem reverseRangeGo_perm :
    ∀ (fuel i j : Nat) (l : List α), List.Perm (reverseRangeGo fuel i j l) l := by
  intro fuel
  induction fuel with
  | zero => intro i j l; simp [reverseRangeGo]
  | succ f ih =>
    intro i j l
    simp only [reverseRangeGo]
    split
    · exact (ih _ _ _).trans (swapL_perm _ _ _)
    · exact List.Perm.refl l

theorem breakPatternsGo_perm (a b : Nat) (l : List α) : List.Perm (breakPatternsGo a b l) l := by
  simp only [breakPatternsGo]
  split
  · exact (swapL_perm _ _ _).trans ((swapL_perm _ _ _).trans (swapL_perm _ _ _))
  · exact List.Perm.refl l

theorem partLoopGo_perm (a : Nat) :
    ∀ (fuel i j : Nat) (l : List α), List.Perm (partLoopGo less a fuel i j l).2 l := by
  intro fuel
  induction fuel with
  | zero => intro i j l; simp [partLoopGo]
  | succ f ih =>
    intro i j l
    simp only [partLoopGo]
    split
    · exact List.Perm.refl l
    · exact (ih _ _ _).trans (swapL_perm _ _ _)

theorem partitionGo_perm (a b pivot : Nat) (l : List α) :
    List.Perm (partitionGo less a b pivot l).2.2 l := by
  simp only [partitionGo]
  split
  · exact (swapL_perm _ _ _).trans (swapL_perm _ _ _)
  · exact (swapL_perm _ _ _).trans
      ((partLoopGo_perm less a _ _ _ _).trans
        ((swapL_perm _ _ _).trans (swapL_perm _ _ _)))

theorem partEqLoopGo_perm (a : Nat) :
    ∀ (fuel i j : Nat) (l : List α), List.Perm (partEqLoopGo less a fuel i j l).2 l := by
  intro fuel
  induction fuel with
  | zero => intro i j l; simp [partEqLoopGo]
  | succ f ih =>
    intro i j l
    simp only [partEqLoopGo]
    split
    · exact List.Perm.refl l
    · exact (ih _ _ _).trans (swapL_perm _ _ _)

theorem partitionEqualGo_perm (a b pivot : Nat) (l : List α) :
    List.Perm (partitionEqualGo less a b pivot l).2 l := by
  simp only [partitionEqualGo]
  exact (partEqLoopGo_perm less a _ _ _ _).trans (swapL_perm _ _ _)

theorem shiftLeftGo_perm : ∀ (j : Nat) (l : List α), List.Perm (shiftLeftGo less j l) l := by
  intro j
  induction j with
  | zero => intro l; simp [shiftLeftGo]
  | succ j ih =>
    intro l
    simp only [shiftLeftGo]
    split
    · exact List.Perm.refl l
    · exact (ih _).trans (swapL_perm _ _ _)

theorem shiftRightGo_perm (b : Nat) :
    ∀ (fuel j : Nat) (l : List α), List.Perm (shiftRightGo less b fuel j l) l := by
  intro fuel
  induction fuel with
  | zero => intro j l; simp [shiftRightGo]
  | succ f ih =>
    intro j l
    simp only [shiftRightGo]
    split
    · split
      · exact List.Perm.refl l
      · exact (ih _ _).trans (swapL_perm _ _ _)
    · exact List.Perm.refl l

theorem partialInsAuxGo_perm (a b : Nat) :
    ∀ (steps i : Nat) (l : List α), List.Perm (partialInsAuxGo less a b steps i l).2 l := by
  intro steps
  induction steps with
  | zero => intro i l; simp [partialInsAuxGo]
  | succ s ih =>
    intro i l
    simp only [partialInsAuxGo]
    split
    · exact List.Perm.refl l
    · split
      · exact List.Perm.refl l
      · refine (ih _ _).trans ?_
        split <;> split <;>
          first
            | exact (shiftRightGo_perm less b _ _ _).trans
                ((shiftLeftGo_perm less _ _).trans (swapL_perm _ _ _))
            | exact (shiftRightGo_perm less b _ _ _).trans (swapL_perm _ _ _)
            | exact (shiftLeftGo_perm less _ _).trans (swapL_perm _ _ _)
            | exact swapL_perm _ _ _

theorem partialInsertionSortGo_perm (a b : Nat) (l : List α) :
    List.Perm (partialInsertionSortGo less a b l).2 l :=
  partialInsAuxGo_perm less a b 5 (a + 1) l

end GoSortPerm

end GoTree

namespace GoTree

section GoSortPerm2

variable {α : Type} [Inhabited α] (less : α → α → Bool)

theorem pdqTailGo_perm (sr : Nat → Nat → Nat → Bool → Bool → List α → List α)
    (hsr : ∀ a b limit wasB wasP l, List.Perm (sr a b limit wasB wasP l) l)
    (a b limit : Nat) (wasB wasP : Bool) (pivot : Nat) (l : List α) :
    List.Perm (pdqTailGo less sr a b limit wasB wasP pivot l) l := by
  simp only [pdqTailGo]
  split
  · exact (hsr _ _ _ _ _ _).trans (partitionEqualGo_perm less a b pivot l)
  · split
    · exact (hsr _ _ _ _ _ _).trans
        ((hsr _ _ _ _ _ _).trans (partitionGo_perm less a b pivot l))
    · exact (hsr _ _ _ _ _ _).trans
        ((hsr _ _ _ _ _ _).trans (partitionGo_perm less a b pivot l))

theorem pdqIterGo_perm (sr : Nat → Nat → Nat → Bool → Bool → List α → List α)
    (hsr : ∀ a b limit wasB wasP l, List.Perm (sr a b limit wasB wasP l) l)
    (a b limit : Nat) (wasB wasP : Bool) (l : List α) :
    List.Perm (pdqIterGo less sr a b limit wasB wasP l) l := by
  have h1 : ∀ L : List α, List.Perm L l → List.Perm (partialInsertionSortGo less a b L).2 l :=
    fun L h => (partialInsertionSortGo_perm less a b L).trans h
  have h2 : ∀ (limit2 pivot : Nat) (L : List α), List.Perm L l →
      List.Perm (pdqTailGo less sr a b limit2 wasB wasP pivot L) l :=
    fun limit2 pivot L h => (pdqTailGo_perm less sr hsr a b limit2 wasB wasP pivot L).trans h
  simp only [pdqIterGo]
  repeat' split
  all_goals first
    | exact h1 _ (List.Perm.refl _)
    | exact h1 _ (breakPatternsGo_perm _ _ _)
    | exact h1 _ (reverseRangeGo_perm _ _ _ _)
    | exact h1 _ ((reverseRangeGo_perm _ _ _ _).trans (breakPatternsGo_perm _ _ _))
    | exact List.Perm.refl _
    | exact breakPatternsGo_perm _ _ _
    | exact reverseRangeGo_perm _ _ _ _
    | exact (reverseRangeGo_perm _ _ _ _).trans (breakPatternsGo_perm _ _ _)
    | exact h2 _ _ _ (h1 _ (List.Perm.refl _))
    | exact h2 _ _ _ (h1 _ (breakPatternsGo_perm _ _ _))
    | exact h2 _ _ _ (h1 _ (reverseRangeGo_perm _ _ _ _))
    | exact h2 _ _ _ (h1 _ ((reverseRangeGo_perm _ _ _ _).trans (breakPatternsGo_perm _ _ _)))
    | exact h2 _ _ _ (List.Perm.refl _)
    | exact h2 _ _ _ (breakPatternsGo_perm _ _ _)
    | exact h2 _ _ _ (reverseRangeGo_perm _ _ _ _)
    | exact h2 _ _ _ ((reverseRangeGo_perm _ _ _ _).trans (breakPatternsGo_perm _ _ _))

theorem pdqsortGo_perm :
    ∀ (fuel a b limit : Nat) (wasB wasP : Bool) (l : List α),
      List.Perm (pdqsortGo less fuel a b limit wasB wasP l) l := by
  intro fuel
  induction fuel with
  | zero => intro a b limit wasB wasP l; simp [pdqsortGo]
  | succ fuel ih =>
    intro a b limit wasB wasP l
    simp only [pdqsortGo]
    split
    · exact insertionSortGo_perm less a b l
    · split
      · exact heapSortGo_perm less a b l
      · exact pdqIterGo_perm less (pdqsortGo less fuel) (fun _ _ _ _ _ _ => ih _ _ _ _ _ _)
          a b limit wasB wasP l

theorem goSortSlice_perm (l : List α) : List.Perm (goSortSlice less l) l := by
  simp only [goSortSlice]
  split
  · exact List.Perm.refl l
  · exact pdqsortGo_perm less _ 0 l.length _ true true l

end GoSortPerm2

/-- The comparator the `sort` switch selects (fixed priority order,
default `NameSort`). -/
def activeSortFn (opts : Options) : SortFunc :=
  if opts.ModSort then ModSort
  else if opts.CTimeSort then CTimeSort
  else if opts.DirSort then DirSort
  else if opts.VerSort then VerSort
  else if opts.SizeSort then SizeSort
  else NameSort

theorem sortNodes_eq (opts : Options) (nodes : List Node) :
    sortNodes opts nodes =
      if opts.ReverSort then
        goSortSlice (fun n1 n2 => activeSortFn opts n2.fi n1.fi) nodes
      else goSortSlice (fun n1 n2 => activeSortFn opts n1.fi n2.fi) nodes := by
  unfold sortNodes activeSortFn
  split_ifs <;> rfl

theorem sortNodes_perm (opts : Options) (nodes : List Node) :
    List.Perm (sortNodes opts nodes) nodes := by
  rw [sortNodes_eq]
  split
  · exact goSortSlice_perm _ nodes
  · exact goSortSlice_perm _ nodes

end GoTree

namespace GoTree

section InsListDefs

variable {α : Type} (less : α → α → Bool)

/-- Insert `x` into the reversed already-processed prefix: the list view
of the `insertionSort` bubbling loop (the element moves left past every
predecessor `y` with `less x y`). -/
def insRev (x : α) : List α → List α
  | [] => [x]
  | y :: ys => if less x y then y :: insRev x ys else x :: y :: ys

/-- Left fold of `insRev` over the input: the reversed result of the
full insertion sort. -/
def insSortRevAux : List α → List α → List α
  | racc, [] => racc
  | racc, x :: xs => insSortRevAux (insRev less x racc) xs

/-- List formulation of Go's `insertionSort` over a whole slice. -/
def insertionSortL (xs : List α) : List α :=
  (insSortRevAux less [] xs).reverse

theorem insRev_length (x : α) : ∀ racc : List α, (insRev less x racc).length = racc.length + 1
  | [] => rfl
  | y :: ys => by
    simp only [insRev]
    split
    · simp [insRev_length x ys]
    · simp

end InsListDefs

section InsListEquiv

variable {α : Type} [Inhabited α] (less : α → α → Bool)

theorem swapL_adjacent (A : List α) (u v : α) (B : List α) :
    swapL (A ++ u :: v :: B) (A.length + 1) A.length = A ++ v :: u :: B := by
  have hlen : A.length + 1 < (A ++ u :: v :: B).length := by
    simp only [List.length_append, List.length_cons]
    omega
  have hlen2 : A.length < (A ++ u :: v :: B).length := by
    simp only [List.length_append, List.length_cons]
    omega
  have hu : (A ++ u :: v :: B).getD A.length default = u := by
    rw [List.getD_append_right _ _ _ _ (Nat.le_refl _)]
    simp
  have hv : (A ++ u :: v :: B).getD (A.length + 1) default = v := by
    rw [List.getD_append_right _ _ _ _ (by omega)]
    simp [Nat.add_sub_cancel_left]
  unfold swapL
  rw [if_pos ⟨hlen, hlen2⟩, hu, hv]
  rw [List.set_append_right _ _ (by omega), List.set_append_right _ _ (by omega)]
  simp

theorem bubble_insRev : ∀ (rp : List α) (x : α) (suf : List α),
    bubbleGo less 0 rp.length (rp.reverse ++ x :: suf) = (insRev less x rp).reverse ++ suf := by
  intro rp
  induction rp with
  | nil => intro x suf; simp [bubbleGo, insRev]
  | cons y rp2 ih =>
    intro x suf
    have hxl : ((y :: rp2).reverse ++ x :: suf) = rp2.reverse ++ y :: x :: suf := by simp
    have hx : gl (rp2.reverse ++ y :: x :: suf) (rp2.length + 1) = x := by
      simp only [gl]
      rw [List.getD_append_right _ _ _ _ (by simp)]
      simp
    have hy : gl (rp2.reverse ++ y :: x :: suf) rp2.length = y := by
      simp only [gl]
      rw [List.getD_append_right _ _ _ _ (by simp)]
      simp
    have hlen : (y :: rp2).length = rp2.length + 1 := rfl
    rw [hxl, hlen]
    simp only [bubbleGo, hx, hy]
    have hdec : decide (0 ≤ rp2.length) = true := by simp
    rw [hdec]
    simp only [Bool.true_and]
    by_cases hxy : less x y = true
    · rw [if_pos hxy]
      have hsw : swapL (rp2.reverse ++ y :: x :: suf) (rp2.length + 1) rp2.length =
          rp2.reverse ++ x :: y :: suf := by
        have h2 := swapL_adjacent rp2.reverse y x suf
        rw [List.length_reverse] at h2
        exact h2
      rw [hsw, ih x (y :: suf)]
      simp only [insRev]
      rw [if_pos hxy]
      simp
    · have hxy2 : less x y = false := by simpa using hxy
      rw [if_neg (by simp [hxy2])]
      simp only [insRev]
      rw [if_neg (by simp [hxy2])]
      simp

theorem insertionAux_insSort : ∀ (todo rp : List α),
    insertionGoAux less 0 todo.length rp.length (rp.reverse ++ todo) =
      (insSortRevAux less rp todo).reverse := by
  intro todo
  induction todo with
  | nil => intro rp; simp [insertionGoAux, insSortRevAux]
  | cons x rest ih =>
    intro rp
    show insertionGoAux less 0 (rest.length + 1) rp.length (rp.reverse ++ x :: rest) = _
    simp only [insertionGoAux]
    rw [bubble_insRev]
    have hlen := insRev_length less x rp
    have h2 := ih (insRev less x rp)
    rw [hlen] at h2
    rw [h2]
    rfl

theorem insertionSortGo_eq_L (l : List α) :
    insertionSortGo less 0 l.length l = insertionSortL less l := by
  cases l with
  | nil => rfl
  | cons x rest =>
    show insertionGoAux less 0 ((x :: rest).length - (0 + 1)) (0 + 1) (x :: rest) = _
    have h1 : (x :: rest).length - (0 + 1) = rest.length := by simp
    rw [h1]
    have h2 := insertionAux_insSort less rest [x]
    simp only [List.reverse_cons, List.reverse_nil, List.nil_append, List.length_cons,
      List.length_nil, List.singleton_append] at h2
    have h3 : (0 + 1 : Nat) = (1 : Nat) := rfl
    rw [h3]
    rw [h2]
    rfl

end InsListEquiv


end GoTree

namespace GoTree

section Stability

variable {α : Type} (less : α → α → Bool)

theorem insRev_split (x : α) : ∀ racc : List α, ∃ l1 l2, racc = l1 ++ l2 ∧
    insRev less x racc = l1 ++ x :: l2 ∧ ∀ y ∈ l1, less x y = true := by
  intro racc
  induction racc with
  | nil => exact ⟨[], [], rfl, rfl, by simp⟩
  | cons y ys ih =>
    by_cases h : less x y = true
    · obtain ⟨l1, l2, he, hi, hall⟩ := ih
      refine ⟨y :: l1, l2, by simp [he], ?_, ?_⟩
      · simp only [insRev]
        rw [if_pos h, hi]
        rfl
      · intro z hz
        rcases List.mem_cons.mp hz with hz | hz
        · exact hz ▸ h
        · exact hall z hz
    · refine ⟨[], y :: ys, rfl, ?_, by simp⟩
      simp only [insRev]
      rw [if_neg h]
      rfl

theorem sublist_insRev_old {p q x : α} {racc : List α} (h : List.Sublist [q, p] racc) :
    List.Sublist [q, p] (insRev less x racc) := by
  obtain ⟨l1, l2, he, hi, _⟩ := insRev_split less x racc
  rw [hi]
  refine h.trans ?_
  rw [he]
  exact (List.sublist_cons_self x l2).append_left l1

theorem mem_insRev {p x : α} {racc : List α} (h : p ∈ racc) :
    p ∈ insRev less x racc := by
  obtain ⟨l1, l2, he, hi, _⟩ := insRev_split less x racc
  rw [hi]
  rw [he] at h
  rcases List.mem_append.mp h with h | h
  · exact List.mem_append.mpr (Or.inl h)
  · exact List.mem_append.mpr (Or.inr (List.mem_cons_of_mem x h))

theorem self_mem_insRev (x : α) (racc : List α) : x ∈ insRev less x racc := by
  obtain ⟨l1, l2, _, hi, _⟩ := insRev_split less x racc
  rw [hi]
  exact List.mem_append.mpr (Or.inr (List.mem_cons_self x l2))

theorem sublist_insRev_new {p x : α} {racc : List α} (hmem : p ∈ racc)
    (hxp : less x p = false) : List.Sublist [x, p] (insRev less x racc) := by
  obtain ⟨l1, l2, he, hi, hall⟩ := insRev_split less x racc
  rw [hi]
  have hp2 : p ∈ l2 := by
    rw [he] at hmem
    rcases List.mem_append.mp hmem with h | h
    · exact absurd (hall p h) (by simp [hxp])
    · exact h
  obtain ⟨u, v, huv⟩ := List.append_of_mem hp2
  rw [huv]
  have h1 : List.Sublist [p] (p :: v) := (List.nil_sublist v).cons₂ p
  have h2 : List.Sublist [p] (u ++ p :: v) := h1.trans (List.sublist_append_right u (p :: v))
  have h3 : List.Sublist [x, p] (x :: (u ++ p :: v)) := h2.cons₂ x
  exact h3.trans (List.sublist_append_right l1 _)

theorem insSort_stable {p q : α} (_hpq : less p q = false) (hqp : less q p = false) :
    ∀ (todo racc : List α),
      (List.Sublist [q, p] racc ∨ (p ∈ racc ∧ q ∈ todo) ∨ List.Sublist [p, q] todo) →
      List.Sublist [q, p] (insSortRevAux less racc todo) := by
  intro todo
  induction todo with
  | nil =>
    intro racc h
    rcases h with h | ⟨_, h⟩ | h
    · exact h
    · simp at h
    · simp at h
  | cons x rest ih =>
    intro racc h
    show List.Sublist [q, p] (insSortRevAux less (insRev less x racc) rest)
    rcases h with h | ⟨hp, hq⟩ | h
    · exact ih _ (Or.inl (sublist_insRev_old less h))
    · rcases List.mem_cons.mp hq with hqx | hq
      · subst hqx
        exact ih _ (Or.inl (sublist_insRev_new less hp hqp))
      · exact ih _ (Or.inr (Or.inl ⟨mem_insRev less hp, hq⟩))
    · rcases List.sublist_cons_iff.mp h with h | ⟨r, hr, hrest⟩
      · exact ih _ (Or.inr (Or.inr h))
      · obtain ⟨h1, h2⟩ : p = x ∧ [q] = r := by
          rw [List.cons_eq_cons] at hr
          exact hr
        subst h1
        rw [← h2] at hrest
        have hq : q ∈ rest := List.singleton_sublist.mp hrest
        exact ih _ (Or.inr (Or.inl ⟨self_mem_insRev less p racc, hq⟩))

end Stability

end GoTree

namespace GoTree

section Stability2

variable {α : Type} [Inhabited α] (less : α → α → Bool)

/-- Go's `sort.Sort` on at most 12 elements is exactly its insertion
sort (the `length <= maxInsertion` dispatch of `pdqsort`). -/
theorem goSortSlice_small (l : List α) (h : l.length ≤ 12) :
    goSortSlice less l = insertionSortGo less 0 l.length l := by
  simp only [goSortSlice]
  split
  · rename_i hle
    have h0 : l.length - (0 + 1) = 0 := by omega
    simp [insertionSortGo, h0, insertionGoAux]
  · obtain ⟨f, hf⟩ : ∃ f, (l.length + 2) * (l.length + 2) = f + 1 :=
      ⟨(l.length + 2) * (l.length + 2) - 1, by
        have : 1 ≤ (l.length + 2) * (l.length + 2) := Nat.one_le_iff_ne_zero.mpr (by positivity)
        omega⟩
    rw [hf]
    simp only [pdqsortGo]
    rw [if_pos (by simpa using h)]

end Stability2

end GoTree

namespace GoTree

theorem goSortSlice_stable_small {α : Type} [Inhabited α] (less : α → α → Bool) {p q : α}
    (hpq : less p q = false) (hqp : less q p = false) (xs : List α) (h12 : xs.length ≤ 12)
    (hin : List.Sublist [p, q] xs) : List.Sublist [p, q] (goSortSlice less xs) := by
  rw [goSortSlice_small less xs h12, insertionSortGo_eq_L]
  have h1 := insSort_stable less hpq hqp xs [] (Or.inr (Or.inr hin))
  have h2 := h1.reverse
  simpa [insertionSortL] using h2

/-- Claim C5 (amended): sibling sorting is deterministic — `sort` is a
pure function of the children sequence and active comparator, and its
result is a permutation of the input; enabling the reverse flag inverts
only the comparator's pairwise verdict (`sort.Reverse` transposes the
index pair handed to `Less`), not the children sequence; and for
sibling lists of AT MOST 12 ENTRIES (Go's `sort.Sort` then runs its
insertion sort) siblings with equal keys keep their input order under
both the forward and the reversed comparator, hence the same relative
order in both.  For longer sibling lists the quicksort partitioning
reorders equal-key siblings, and differently so under the reversed
comparator (see the counterexample). -/
theorem C5_sort_reverse_and_ties :
    (∀ (opts : Options) (nodes : List Node), List.Perm (sortNodes opts nodes) nodes) ∧
    (∀ (opts : Options) (nodes : List Node), opts.ReverSort = true →
      sortNodes opts nodes =
        goSortSlice (fun n1 n2 => activeSortFn opts n2.fi n1.fi) nodes) ∧
    (∀ (opts : Options) (xs : List Node) (a b : Node),
      xs.length ≤ 12 →
      activeSortFn opts a.fi b.fi = false → activeSortFn opts b.fi a.fi = false →
      List.Sublist [a, b] xs →
      List.Sublist [a, b] (goSortSlice (fun n1 n2 => activeSortFn opts n1.fi n2.fi) xs) ∧
      List.Sublist [a, b] (goSortSlice (fun n1 n2 => activeSortFn opts n2.fi n1.fi) xs)) := by
  refine ⟨sortNodes_perm, ?_, ?_⟩
  · intro opts nodes h
    rw [sortNodes_eq, if_pos h]
  · intro opts xs a b h12 hab hba hin
    exact ⟨goSortSlice_stable_small (fun n1 n2 : Node => activeSortFn opts n1.fi n2.fi)
             hab hba xs h12 hin,
           goSortSlice_stable_small (fun n1 n2 : Node => activeSortFn opts n2.fi n1.fi)
             hba hab xs h12 hin⟩

/-- A file node carrying only a name and a size, for the sort theorems. -/
def szNode (nm : String) (sz : Int) : Node :=
  { path := nm, depth := 1,
    fi := some { name := nm, size := sz, isDir := false, isSymlink := false,
                 modeStr := "", mtime := 0, mtimeYear := 0, mtimeHM := "",
                 mtimeYr := "", hasStat := false, inode := 0, device := 0,
                 uid := 0, gid := 0, ctime := 0, linkTarget := none },
    err := none, nodes := [] }

/-- Thirteen siblings: twelve of size 0 (named a..l in input order) and
one of size 1 (named m). -/
def c5nodes : List Node :=
  [szNode "a" 0, szNode "b" 0, szNode "c" 0, szNode "d" 0, szNode "e" 0,
   szNode "f" 0, szNode "g" 0, szNode "h" 0, szNode "i" 0, szNode "j" 0,
   szNode "k" 0, szNode "l" 0, szNode "m" 1]

theorem C5_sort_reverse_and_ties_counterexample :
    ((sortNodes { SizeSort := true } c5nodes).map Node.name =
      ["a", "b", "c", "d", "e", "f", "g", "h", "i", "j", "k", "l", "m"]) ∧
    ((sortNodes { SizeSort := true, ReverSort := true } c5nodes).map Node.name =
      ["m", "g", "c", "d", "e", "f", "a", "h", "i", "j", "k", "l", "b"]) ∧
    SizeSort (szNode "a" 0).fi (szNode "c" 0).fi = false ∧
    SizeSort (szNode "c" 0).fi (szNode "a" 0).fi = false := by
  refine ⟨by decide, by decide, by decide, by decide⟩

theorem C5_sort_reverse_and_ties_witness :
    ([szNode "a" 0, szNode "b" 0, szNode "c" 1] : List Node).length ≤ 12 ∧
    List.Sublist [szNode "a" 0, szNode "b" 0]
      (goSortSlice
        (fun n1 n2 => activeSortFn { SizeSort := true } n1.fi n2.fi)
        [szNode "a" 0, szNode "b" 0, szNode "c" 1]) ∧
    List.Sublist [szNode "a" 0, szNode "b" 0]
      (goSortSlice
        (fun n1 n2 => activeSortFn { SizeSort := true } n2.fi n1.fi)
        [szNode "a" 0, szNode "b" 0, szNode "c" 1]) ∧
    sortNodes { SizeSort := true, ReverSort := true, NoSort := false }
        [szNode "a" 0] =
      goSortSlice
        (fun n1 n2 => activeSortFn { SizeSort := true, ReverSort := true } n2.fi n1.fi)
        [szNode "a" 0] := by
  have h := C5_sort_reverse_and_ties.2.2 { SizeSort := true }
    [szNode "a" 0, szNode "b" 0, szNode "c" 1] (szNode "a" 0) (szNode "b" 0)
    (by decide) (by decide) (by decide)
    (((List.nil_sublist [szNode "c" 1]).cons₂ (szNode "b" 0)).cons₂ (szNode "a" 0))
  exact ⟨by decide, h.1, h.2,
    C5_sort_reverse_and_ties.2.1 { SizeSort := true, ReverSort := true, NoSort := false }
      [szNode "a" 0] rfl⟩

end GoTree

namespace GoTree

/-! ## The filesystem capability and OS model

`Fs` (`Stat`/`ReadDir`) plus the OS calls the renderer makes
(`os.Readlink`, `filepath.EvalSymlinks`, `user.LookupId`, the MIME
sniffer and the preview read) are collaborators outside the engine; they
are modelled by a finite entry tree.  Paths are absolute, slash-joined
strings of clean components, so `filepath.Abs` and `filepath.Clean` are
the identity on every path the traversal builds, and `filepath.Join`
appends one component. -/

/-- One modelled filesystem entry: a successfully statable file, a
successfully statable and listable directory (children in `ReadDir`
order), an entry whose `Stat` fails, or a directory whose `Stat`
succeeds but whose `ReadDir` fails. -/
inductive FSE where
  | file (m : FileInfo)
  | dir (m : FileInfo) (children : List (String × FSE))
  | badStat (msg : String)
  | badDir (m : FileInfo) (msg : String)
  deriving Repr

/-- The modelled world: the entry tree plus the renderer's external
collaborators (`user.LookupId`, the pluggable color function, the MIME
sniffer, the preview read, and the wall-clock year `time.Now()` falls
back to). -/
structure Env where
  root : FSE
  users : List (Int × String) := []
  colorF : Option FileInfo → String → String := fun _ s => s
  sniff : String → Bool := fun _ => false
  readF : String → Option String := fun _ => none
  wallYear : Int := 0

def pathComponents (p : String) : List String :=
  (splitOnStr p "/").filter (fun s => s ≠ "")

/-- `filepath.Join(dir, name)` for a clean directory path and a clean,
slash-free name. -/
def joinPath (p n : String) : String := p ++ "/" ++ n

/-- `filepath.Base`. -/
def basePath (p : String) : String :=
  ((splitOnStr p "/").getLast?).getD p

def lookupChild (n : String) : List (String × FSE) → Option FSE
  | [] => none
  | (nm, e) :: rest => if nm = n then some e else lookupChild n rest

def resolveComps : FSE → List String → Option FSE
  | e, [] => some e
  | FSE.dir _ ch, n :: rest =>
    match lookupChild n ch with
    | some c => resolveComps c rest
    | none => none
  | _, _ :: _ => none

def resolveM (env : Env) (p : String) : Option FSE :=
  resolveComps env.root (pathComponents p)

def metaOfE : FSE → Option FileInfo
  | FSE.file m => some m
  | FSE.dir m _ => some m
  | FSE.badDir m _ => some m
  | FSE.badStat _ => none

/-- `Fs.Stat` (an `os.Lstat`: the final component is not followed). -/
def statM (env : Env) (p : String) : Except String FileInfo :=
  match resolveM env p with
  | none => Except.error ("lstat " ++ p ++ ": no such file or directory")
  | some (FSE.badStat msg) => Except.error msg
  | some (FSE.file m) => Except.ok m
  | some (FSE.dir m _) => Except.ok m
  | some (FSE.badDir m _) => Except.ok m

/-- `Fs.ReadDir`. -/
def readDirM (env : Env) (p : String) : Except String (List String) :=
  match resolveM env p with
  | some (FSE.dir _ ch) => Except.ok (ch.map Prod.fst)
  | some (FSE.badDir _ msg) => Except.error msg
  | some _ => Except.error ("readdirent " ++ p ++ ": not a directory")
  | none => Except.error ("open " ++ p ++ ": no such file or directory")

/-- `os.Readlink`: the stored link text of a symlink entry. -/
def readlinkM (env : Env) (p : String) : Option String :=
  match (resolveM env p).bind metaOfE with
  | some m => if m.isSymlink then m.linkTarget else none
  | none => none

/-- `filepath.EvalSymlinks`: the resolved target of a symlink entry if
it exists, the path itself for an existing non-symlink. -/
def evalSymlinksM (env : Env) (p : String) : Option String :=
  match (resolveM env p).bind metaOfE with
  | some m =>
    if m.isSymlink then
      match m.linkTarget with
      | some t => if (resolveM env t).isSome then some t else none
      | none => none
    else some p
  | none => none

/-- The visited-path map: `node.vpaths[path] = true` insertion.  The
paths the engine inserts are clean and absolute in the model, so
`filepath.Abs`/`filepath.Clean` are the identity. -/
def vpInsert (p : String) (vp : List String) : List String :=
  if p ∈ vp then vp else p :: vp

end GoTree

namespace GoTree

/-! ## The Visitor

`func (node *Node) Visit(opts *Options) (dirs, files int)` — the
recursive traversal.  The node's mutation is modelled by returning the
populated node; the shared `vpaths` map is threaded through and
returned.  `visitE` handles one entry (the code's `Visit` body after
`Stat` resolved to that entry), `visitKids` is the children loop, and
`visitAt` is `Visit` rooted at a path (`Stat` may fail to resolve). -/

/-- The `Visit` body for a directory that stats as a directory but whose
`ReadDir` fails (or, for completeness, a non-`dir` entry whose metadata
claims it is a directory): dir count, depth-limit check, `MatchDirs`
pre-listing check, then the listing error is recorded on the node. -/
def visitNoList (opts : Options) (m : FileInfo) (msg path : String) (depth : Nat)
    (vp : List String) : Node × Nat × Nat × List String :=
  let dirs0 : Nat := if depth ≠ 0 then 1 else 0
  if 0 < opts.DeepLevel ∧ opts.DeepLevel ≤ (depth : Int) then
    (⟨path, depth, some m, none, []⟩, dirs0, 0, vp)
  else
    let self : Node := ⟨path, depth, some m, none, []⟩
    if depth ≠ 0 ∧ opts.MatchDirs ∧ opts.Pattern = "" ∧ opts.IPattern ≠ "" ∧
        self.matchPat opts.IPattern opts then
      (self, dirs0, 0, vp)
    else
      (⟨path, depth, some m, some msg, []⟩, dirs0, 0, vp)

mutual

/-- `Visit` on one resolved entry. -/
def visitE (opts : Options) : FSE → String → Nat → List String → Node × Nat × Nat × List String
  | FSE.badStat msg, path, depth, vp =>
    (⟨path, depth, none, some msg, []⟩, 0, 0, vpInsert path vp)
  | FSE.file m, path, depth, vp =>
    let vp := vpInsert path vp
    if !m.isDir then (⟨path, depth, some m, none, []⟩, 0, 1, vp)
    else visitNoList opts m ("readdirent " ++ path ++ ": not a directory") path depth vp
  | FSE.badDir m msg, path, depth, vp =>
    let vp := vpInsert path vp
    if !m.isDir then (⟨path, depth, some m, none, []⟩, 0, 1, vp)
    else visitNoList opts m msg path depth vp
  | FSE.dir m ch, path, depth, vp =>
    let vp := vpInsert path vp
    if !m.isDir then (⟨path, depth, some m, none, []⟩, 0, 1, vp)
    else
      let dirs0 : Nat := if depth ≠ 0 then 1 else 0
      if 0 < opts.DeepLevel ∧ opts.DeepLevel ≤ (depth : Int) then
        (⟨path, depth, some m, none, []⟩, dirs0, 0, vp)
      else
        let self : Node := ⟨path, depth, some m, none, []⟩
        if depth ≠ 0 ∧ opts.MatchDirs ∧ opts.Pattern = "" ∧ opts.IPattern ≠ "" ∧
            self.matchPat opts.IPattern opts then
          (self, dirs0, 0, vp)
        else
          let dirMatch : Bool :=
            decide (depth ≠ 0) && opts.MatchDirs && decide (opts.Pattern ≠ "") &&
              self.matchPat opts.Pattern opts
          let r := visitKids opts ch path depth dirMatch vp
          let kids := if !opts.NoSort then sortNodes opts r.1 else r.1
          (⟨path, depth, some m, none, kids⟩, dirs0 + r.2.1, r.2.2.1, r.2.2.2)

/-- The children loop of `Visit`: skip hidden names unless `All`, visit
the child, then apply the post-visit keep/drop filters; dropped children
contribute neither node nor counts, but their `vpaths` insertions
remain. -/
def visitKids (opts : Options) :
    List (String × FSE) → String → Nat → Bool → List String →
      List Node × Nat × Nat × List String
  | [], _, _, _, vp => ([], 0, 0, vp)
  | (name, ent) :: rest, path, depth, dirMatch, vp =>
    if !opts.All && hasPre "." name then
      visitKids opts rest path depth dirMatch vp
    else
      let r := visitE opts ent (joinPath path name) (depth + 1) vp
      let nnode := r.1
      let keep : Bool :=
        if nnode.err = none then
          if nnode.isDir then
            !(opts.Prune && decide (r.2.2.1 = 0)) &&
              !(opts.MatchDirs && decide (opts.IPattern ≠ "") &&
                nnode.matchPat opts.IPattern opts)
          else
            !opts.DirsOnly &&
              !(!dirMatch && decide (opts.Pattern ≠ "") &&
                !nnode.matchPat opts.Pattern opts) &&
              !(decide (opts.IPattern ≠ "") && nnode.matchPat opts.IPattern opts)
        else true
      let rr := visitKids opts rest path depth dirMatch r.2.2.2
      if keep then (nnode :: rr.1, r.2.1 + rr.2.1, r.2.2.1 + rr.2.2.1, rr.2.2.2)
      else (rr.1, rr.2.1, rr.2.2.1, rr.2.2.2)

end

/-- `Visit` rooted at a path: `Stat` goes through path resolution. -/
def visitAt (env : Env) (opts : Options) (path : String) (depth : Nat)
    (vp : List String) : Node × Nat × Nat × List String :=
  match resolveM env path with
  | some e => visitE opts e path depth vp
  | none =>
    (⟨path, depth, none, some ("lstat " ++ path ++ ": no such file or directory"), []⟩,
      0, 0, vpInsert path vp)

end GoTree

namespace GoTree

/-- A plain `FileInfo` with a name, size and directory flag. -/
def mkFI (nm : String) (sz : Int) (dir : Bool) : FileInfo :=
  { name := nm, size := sz, isDir := dir, isSymlink := false, modeStr := "",
    mtime := 0, mtimeYear := 0, mtimeHM := "", mtimeYr := "", hasStat := false,
    inode := 0, device := 0, uid := 0, gid := 0, ctime := 0, linkTarget := none }

/-- A named plain file entry. -/
def mfile (nm : String) (sz : Int) : String × FSE := (nm, FSE.file (mkFI nm sz false))

/-- A named directory entry with children. -/
def mdir (nm : String) (sz : Int) (ch : List (String × FSE)) : String × FSE :=
  (nm, FSE.dir (mkFI nm sz true) ch)

end GoTree

namespace GoTree

/-! ## Size aggregation and annotations -/

/-- `node.Mode()&os.ModeSymlink == os.ModeSymlink` (only called on
nodes whose `FileInfo` is set). -/
def Node.isSymlink (n : Node) : Bool :=
  (n.fi.map FileInfo.isSymlink).getD false

mutual

/-- `func dirRecursiveSize(opts *Options, node *Node) (size int64, err error)`. -/
def dirRecursiveSize (opts : Options) : Node → Int × Option String
  | Node.mk _ depth _ _ kids =>
    drsKids opts kids
      (if 0 < opts.DeepLevel ∧ opts.DeepLevel ≤ (depth : Int) then some "Depth too high"
       else none)

/-- The loop of `dirRecursiveSize`: error children are skipped but set
the running error, files add their size, directories recurse; the last
error seen wins. -/
def drsKids (opts : Options) : List Node → Option String → Int × Option String
  | [], err => (0, err)
  | n :: rest, err =>
    if n.err.isSome then drsKids opts rest n.err
    else if !n.isDir then
      let r := drsKids opts rest err
      (n.size + r.1, r.2)
    else
      let rc := dirRecursiveSize opts n
      let err2 := if rc.2.isSome then rc.2 else err
      let r := drsKids opts rest err2
      (rc.1 + r.1, r.2)

end

/-- Modelled from the spec: `getStat` of the platform stat files (only
their BSD/Linux `CTimeSort` halves are in src): the
`*syscall.Stat_t` type assertion plus the inode/device/uid/gid fields. -/
def getStat (n : Node) : Bool × Int × Int × Int × Int :=
  match n.fi with
  | some m => (m.hasStat, m.inode, m.device, m.uid, m.gid)
  | none => (false, 0, 0, 0, 0)

/-- `user.LookupId`. -/
def lookupUser : List (Int × String) → Int → Option String
  | [], _ => none
  | (u, nm) :: rest, uid => if u = uid then some nm else lookupUser rest uid

/-- The annotation block `print` builds for a non-directory node, in
source order: inode, device, mode, owner, group, size, last
modification. -/
def fileProps (env : Env) (opts : Options) (node : Node) : List String :=
  let gs := getStat node
  let ok := gs.1
  (if ok && opts.Inodes then [toString gs.2.1] else []) ++
  (if ok && opts.Device then [padLeftTo 3 (toString gs.2.2.1)] else []) ++
  (if opts.FileMode then [(node.fi.map FileInfo.modeStr).getD ""] else []) ++
  (if ok && opts.ShowUid then
    [match lookupUser env.users gs.2.2.2.1 with
     | none => padRightTo 8 (toString gs.2.2.2.1)
     | some u => padRightTo 8 u]
   else []) ++
  (if ok && opts.ShowGid then [padRightTo 4 (toString gs.2.2.2.2)] else []) ++
  (if opts.ByteSize || opts.UnitSize then
    [if opts.UnitSize then padLeftTo 4 (formatBytes node.size)
     else padLeftTo 11 (toString node.size)]
   else []) ++
  (if opts.LastMod then
    [let nowYear := opts.Now.getD env.wallYear
     if (node.fi.map FileInfo.mtimeYear).getD 0 = nowYear then
       (node.fi.map FileInfo.mtimeHM).getD ""
     else (node.fi.map FileInfo.mtimeYr).getD ""]
   else [])

/-- The annotation block `print` builds for a directory node: only the
(recursive) size, blank-padded when the aggregate is non-positive with
an error. -/
def dirProps (opts : Options) (node : Node) : List String :=
  if opts.ByteSize || opts.UnitSize then
    let r := dirRecursiveSize opts node
    [if r.2.isSome ∧ r.1 ≤ 0 then (if opts.UnitSize then "    " else "           ")
     else if opts.UnitSize then padLeftTo 4 (formatBytes r.1)
     else padLeftTo 11 (toString r.1)]
  else []

/-- `"[" + strings.Join(props, " ") + "]  "` when any property was
collected, nothing otherwise. -/
def propsBlock (props : List String) : String :=
  if props.length > 0 then "[" ++ String.intercalate " " props ++ "]  " else ""

/-- The short error message of the error leaf line: the second
`": "`-separated segment when the text splits, the whole text
otherwise. -/
def shortErr (err : String) : String :=
  let msgs := splitOnStr err ": "
  if msgs.length > 1 then msgs.getD 1 "" else err

/-- Index of the first `'\n'` or `'\r'` (`bytes.IndexAny`). -/
def firstNLIdx : List Char → Option Nat
  | [] => none
  | c :: cs =>
    if c = '\n' ∨ c = '\r' then some 0
    else (firstNLIdx cs).map (· + 1)

/-- The ``" => `…`"`` first-line preview suffix: only when the sniffer
reports plain text and the open-and-read of the first (up to) 60 bytes
succeeds; truncate at the first line break, and with a full 60-byte
untruncated read drop the last byte and mark with an ellipsis. -/
def previewSuffix (env : Env) (opts : Options) (path : String) : String :=
  if opts.Contents then
    if env.sniff path then
      match env.readF path with
      | some s =>
        if s = "" then ""
        else
          let cs := s.toList.take 60
          let n := cs.length
          let n1 := match firstNLIdx cs with
            | some i => i
            | none => n
          let hasMore := n1 = 60
          let n2 := if hasMore then 59 else n1
          " => `" ++ String.mk (cs.take n2) ++ (if hasMore then "…`" else "`")
      | none => ""
    else ""
  else ""

end GoTree

namespace GoTree

/-! ## The renderer

`func (node *Node) print(indent string, opts *Options)` writes to
`opts.OutFile`; the embedding returns the written text instead, the
node with its (possibly substituted) children after the call, and the
visited-paths set, which `FollowLink` re-visits extend.  The recursion
is bounded by fuel, decremented on every call; `none` means the fuel
ran out before the walk finished. -/

/-- The name/path choice plus the `Quotes` and `Colorize` steps of
`print`. -/
def displayName (env : Env) (opts : Options) (node : Node) : String :=
  let name0 := if node.depth = 0 ∨ opts.FullPath then node.path else node.name
  let name1 := if opts.Quotes then "\"" ++ name0 ++ "\"" else name0
  if opts.Colorize then env.colorF node.fi name1 else name1

/-- The canonical target of a symlink node: `filepath.EvalSymlinks`,
falling back to the raw `os.Readlink` text, falling back to the node's
own path. -/
def linkTargetPath (env : Env) (node : Node) : String :=
  (evalSymlinksM env node.path).getD ((readlinkM env node.path).getD node.path)

/-- The displayed target text, colourised when the target stats. -/
def linkText (env : Env) (opts : Options) (node : Node) : String :=
  let vt0 := (readlinkM env node.path).getD node.path
  match statM env (linkTargetPath env node) with
  | Except.ok m => if opts.Colorize then env.colorF (some m) vt0 else vt0
  | Except.error _ => vt0

/-- The `IsSymlink` paragraph of `print`: decorate the name with
`" -> target"`, and under `FollowLink` either substitute the
re-visited target directory children, mark `[recursive, not followed]`
when the canonical target is already in the visited set, or leave the
node alone; returns (decorated name, children to print, visited set). -/
def symDeco (env : Env) (opts : Options) (node : Node) (vp : List String)
    (name2 : String) : String × List Node × List String :=
  if node.isSymlink then
    let targetPath := linkTargetPath env node
    let nm := name2 ++ " -> " ++ linkText env opts node
    if opts.FollowLink then
      match statM env targetPath with
      | Except.ok m =>
        if m.isDir then
          if targetPath ∈ vp then
            (nm ++ " [recursive, not followed]", node.nodes, vp)
          else
            match visitAt env opts targetPath 0 vp with
            | (inf, _, _, vp1) => (nm, inf.nodes, vp1)
        else (nm, node.nodes, vp)
      | Except.error _ => (nm, node.nodes, vp)
    else (nm, node.nodes, vp)
  else (name2, node.nodes, vp)

mutual

/-- One `print` call: the early error line, or
properties ++ name (with quoting, colouring, symlink decoration and
`FollowLink` substitution) ++ preview ++ newline, followed by the
children with their branch glyphs. -/
def printF (env : Env) (opts : Options) :
    Nat → Node → String → List String → Option (String × Node × List String)
  | 0, _, _, _ => none
  | fuel + 1, node, indent, vp =>
    match node.err with
    | some e =>
      let nm := if !opts.FullPath then basePath node.path else node.path
      some (nm ++ " [" ++ shortErr e ++ "]\n", node, vp)
    | none =>
      let props := if !node.isDir then fileProps env opts node else dirProps opts node
      match symDeco env opts node vp (displayName env opts node) with
      | (nameF, kids, vp1) =>
        let line := propsBlock props ++ nameF ++ previewSuffix env opts node.path ++ "\n"
        match printListF env opts fuel kids indent vp1 with
        | none => none
        | some (outK, kids2, vp2) =>
          some (line ++ outK, { node with nodes := kids2 }, vp2)

/-- The `for i, nnode := range node.nodes` loop of `print`: each child
gets `indent+"├── "` (`"└── "` for the last) before its own output and
is printed with `indent+add`; `NoIndent` drops both. -/
def printListF (env : Env) (opts : Options) :
    Nat → List Node → String → List String → Option (String × List Node × List String)
  | 0, _, _, _ => none
  | _ + 1, [], _, vp => some ("", [], vp)
  | fuel + 1, n :: rest, indent, vp =>
    let pfx := if opts.NoIndent then ""
      else if rest.isEmpty then indent ++ "└── " else indent ++ "├── "
    let add := if opts.NoIndent then ""
      else if rest.isEmpty then "    " else "│   "
    match printF env opts fuel n (indent ++ add) vp with
    | none => none
    | some (o1, n2, vp2) =>
      match printListF env opts fuel rest indent vp2 with
      | none => none
      | some (o2, rest2, vp3) => some (pfx ++ o1 ++ o2, n2 :: rest2, vp3)

end

/-- `Print` = `print("", opts)`. -/
def printTop (env : Env) (opts : Options) (fuel : Nat) (node : Node)
    (vp : List String) : Option (String × Node × List String) :=
  printF env opts fuel node "" vp

end GoTree

namespace GoTree

/-! ## C2: the error leaf line -/

instance : DecidableEq FileInfo := fun a b =>
  match a, b with
  | ⟨n1, s1, d1, l1, m1, t1, y1, hm1, yr1, hs1, i1, dv1, u1, g1, c1, lt1⟩,
    ⟨n2, s2, d2, l2, m2, t2, y2, hm2, yr2, hs2, i2, dv2, u2, g2, c2, lt2⟩ =>
    decidable_of_iff
      (n1 = n2 ∧ s1 = s2 ∧ d1 = d2 ∧ l1 = l2 ∧ m1 = m2 ∧ t1 = t2 ∧ y1 = y2 ∧
        hm1 = hm2 ∧ yr1 = yr2 ∧ hs1 = hs2 ∧ i1 = i2 ∧ dv1 = dv2 ∧ u1 = u2 ∧
        g1 = g2 ∧ c1 = c2 ∧ lt1 = lt2)
      (by rw [FileInfo.mk.injEq])

mutual

def nodeDecEq : (a b : Node) → Decidable (a = b)
  | ⟨p1, d1, f1, e1, k1⟩, ⟨p2, d2, f2, e2, k2⟩ =>
    if hp : p1 = p2 then
      if hd : d1 = d2 then
        if hf : f1 = f2 then
          if he : e1 = e2 then
            match nodesDecEq k1 k2 with
            | isTrue hk => isTrue (by rw [hp, hd, hf, he, hk])
            | isFalse hk => isFalse (fun h => hk (by cases h; rfl))
          else isFalse (fun h => he (by cases h; rfl))
        else isFalse (fun h => hf (by cases h; rfl))
      else isFalse (fun h => hd (by cases h; rfl))
    else isFalse (fun h => hp (by cases h; rfl))

def nodesDecEq : (as bs : List Node) → Decidable (as = bs)
  | [], [] => isTrue rfl
  | [], _ :: _ => isFalse (by simp)
  | _ :: _, [] => isFalse (by simp)
  | a :: as, b :: bs =>
    match nodeDecEq a b, nodesDecEq as bs with
    | isTrue h1, isTrue h2 => isTrue (by rw [h1, h2])
    | isFalse h1, _ => isFalse (fun h => h1 (by cases h; rfl))
    | _, isFalse h2 => isFalse (fun h => h2 (by cases h; rfl))

end

instance : DecidableEq Node := nodeDecEq

/-- Modelled from the spec: the spec's description of the short error
message as the ENTIRE tail of the error text after the first `": "`
separator (the code instead keeps only the second segment). -/
def tailAfterFirstSep (e : String) : String :=
  match splitOnStr e ": " with
  | _ :: rest@(_ :: _) => String.intercalate ": " rest
  | _ => e

/-- An error node as the traversal records it for a failed stat. -/
def c2node : Node := ⟨"r/x", 1, none, some "a: b: c", []⟩

def c2env : Env := { root := FSE.dir (mkFI "" 0 true) [] }

/-- Claim C2 (corrected): a node with a recorded error renders as the
single line `<displayName> [<short>]` — no annotation block, no
children traversal, the node and the visited set unchanged — but the
short message is the SECOND `": "`-separated segment of the error
text when the text splits, not the entire tail after the first
separator; an unsplittable text is shown whole. -/
theorem C2_error_line (env : Env) (opts : Options) (fuel : Nat) (node : Node)
    (indent : String) (vp : List String) (e : String) (h : node.err = some e) :
    printF env opts (fuel + 1) node indent vp =
      some ((if !opts.FullPath then basePath node.path else node.path)
        ++ " [" ++ shortErr e ++ "]\n", node, vp)
    ∧ ((splitOnStr e ": ").length ≤ 1 → shortErr e = e)
    ∧ ((splitOnStr e ": ").length > 1 → shortErr e = (splitOnStr e ": ").getD 1 "") := by
  refine ⟨?_, ?_, ?_⟩
  · simp only [printF, h]
  · intro hle
    simp only [shortErr]
    rw [if_neg (by omega)]
  · intro hgt
    simp only [shortErr]
    rw [if_pos hgt]

/-- Claim C2, counterexample to the frozen wording: for the error text
`"a: b: c"` the renderer emits `[b]`, while the tail after the first
separator is `"b: c"`. -/
theorem C2_error_line_counterexample :
    printF c2env {} 1 c2node "" [] = some ("x [b]\n", c2node, [])
    ∧ tailAfterFirstSep "a: b: c" = "b: c"
    ∧ shortErr "a: b: c" = "b"
    ∧ ("b" : String) ≠ "b: c" := by decide

/-- Claim C2, witness: the theorem applied to the concrete error node. -/
theorem C2_error_line_witness :
    printF c2env { FullPath := true } 1 c2node "" [] =
      some ("r/x [b]\n", c2node, []) := by
  have h := C2_error_line c2env { FullPath := true } 0 c2node "" [] "a: b: c" rfl
  exact h.1.trans (by decide)

end GoTree

namespace GoTree

/-! ## C9: annotations on directory lines -/

mutual

/-- The size aggregate reads only `DeepLevel` from the options. -/
theorem dirRecursiveSize_congr (o1 o2 : Options) (h : o1.DeepLevel = o2.DeepLevel) :
    (n : Node) → dirRecursiveSize o1 n = dirRecursiveSize o2 n
  | Node.mk _ depth _ _ kids => by
    simp only [dirRecursiveSize, h]
    exact drsKids_congr o1 o2 h kids _

theorem drsKids_congr (o1 o2 : Options) (h : o1.DeepLevel = o2.DeepLevel) :
    (ks : List Node) → (err : Option String) → drsKids o1 ks err = drsKids o2 ks err
  | [], _ => rfl
  | n :: rest, err => by
    simp only [drsKids]
    rw [dirRecursiveSize_congr o1 o2 h n, drsKids_congr o1 o2 h rest,
      drsKids_congr o1 o2 h rest, drsKids_congr o1 o2 h rest]

end

/-- All annotation options enabled at once. -/
def c9opts : Options :=
  { Inodes := true, Device := true, FileMode := true, ShowUid := true,
    ShowGid := true, LastMod := true, ByteSize := true }

/-- An error-free directory node. -/
def c9node : Node := ⟨"root/d", 1, some (mkFI "d" 7 true), none, []⟩

/-- Claim C9: an error-free directory line carries at most a size
annotation: its annotation block is built from `dirProps`, which has at
most one entry, is empty unless a size option is on, and ignores the
inode, device, mode, uid, gid and last-modified options entirely. -/
theorem C9_dir_annotations (env : Env) (opts : Options) (fuel : Nat) (node : Node)
    (indent : String) (vp : List String)
    (hne : node.err = none) (hd : node.isDir = true) :
    (printF env opts (fuel + 1) node indent vp =
      match symDeco env opts node vp (displayName env opts node) with
      | (nameF, kids, vp1) =>
        match printListF env opts fuel kids indent vp1 with
        | none => none
        | some (outK, kids2, vp2) => some (propsBlock (dirProps opts node) ++ nameF
            ++ previewSuffix env opts node.path ++ "\n" ++ outK,
            { node with nodes := kids2 }, vp2))
    ∧ (dirProps opts node).length ≤ 1
    ∧ (opts.ByteSize = false → opts.UnitSize = false → dirProps opts node = [])
    ∧ (∀ b1 b2 b3 b4 b5 b6,
        dirProps { opts with
            Inodes := b1,
            Device := b2,
            FileMode := b3,
            ShowUid := b4,
            ShowGid := b5,
            LastMod := b6 } node
          = dirProps opts node) := by
  refine ⟨?_, ?_, ?_, ?_⟩
  · simp only [printF, hne, hd, Bool.not_true, Bool.false_eq_true, if_false]
  · simp only [dirProps]
    split <;> simp
  · intro h1 h2
    simp [dirProps, h1, h2]
  · intro b1 b2 b3 b4 b5 b6
    have hcongr := dirRecursiveSize_congr
      { opts with
        Inodes := b1,
        Device := b2,
        FileMode := b3,
        ShowUid := b4,
        ShowGid := b5,
        LastMod := b6 } opts rfl node
    simp only [dirProps, hcongr]

/-- Claim C9, witness: with every annotation option enabled, the
directory node still gets only its single size entry, identical to the
one with the six non-size options flipped off. -/
theorem C9_dir_annotations_witness :
    (dirProps c9opts c9node).length ≤ 1
    ∧ dirProps { c9opts with
          Inodes := false,
          Device := false,
          FileMode := false,
          ShowUid := false,
          ShowGid := false,
          LastMod := false } c9node
      = dirProps c9opts c9node
    ∧ dirProps c9opts c9node = ["          0"] :=
  ⟨(C9_dir_annotations c2env c9opts 0 c9node "" [] rfl rfl).2.1,
   (C9_dir_annotations c2env c9opts 0 c9node "" [] rfl rfl).2.2.2
     false false false false false false,
   by decide⟩

end GoTree

namespace GoTree

/-! ## C8: the recursive size aggregate -/

mutual

/-- Shape invariant of every tree `Visit` builds: an error-free node
has its `FileInfo`, an errored node has no children and is either a
stat failure (no `FileInfo`) or a directory whose listing failed, and a
non-directory has no children. -/
def wfN : Node → Bool
  | Node.mk _ _ fi err kids =>
    (match err with
     | some _ => kids.isEmpty && (fi.isNone || (fi.map FileInfo.isDir).getD false)
     | none => fi.isSome) &&
    ((fi.map FileInfo.isDir).getD false || kids.isEmpty) &&
    wfL kids

def wfL : List Node → Bool
  | [] => true
  | n :: rest => wfN n && wfL rest

end

mutual

/-- All strict descendants of a node, in preorder. -/
def descendants : Node → List Node
  | Node.mk _ _ _ _ kids => descL kids

def descL : List Node → List Node
  | [] => []
  | n :: rest => n :: (descendants n ++ descL rest)

end

/-- Total size of the non-directory entries of a node list. -/
def sumNonDirSizes : List Node → Int
  | [] => 0
  | n :: rest => (if n.isDir then 0 else n.size) + sumNonDirSizes rest

/-- A node's contribution to the aggregate's error: its own recorded
error, or the depth guard firing at an error-free directory the
aggregate recurses into. -/
def aggErrContrib (dl : Int) (n : Node) : Bool :=
  n.err.isSome || (decide (0 < dl) && n.isDir && n.err.isNone && decide (dl ≤ (n.depth : Int)))

theorem sumNonDirSizes_append (a b : List Node) :
    sumNonDirSizes (a ++ b) = sumNonDirSizes a + sumNonDirSizes b := by
  induction a with
  | nil => simp [sumNonDirSizes]
  | cons n rest ih =>
    simp only [List.cons_append, sumNonDirSizes, List.append_eq, ih]
    ring

mutual

theorem drs_spec (opts : Options) :
    (n : Node) → wfN n = true →
      (dirRecursiveSize opts n).1 = sumNonDirSizes (descendants n)
      ∧ (dirRecursiveSize opts n).2.isSome =
          ((decide (0 < opts.DeepLevel) && decide (opts.DeepLevel ≤ (n.depth : Int)))
            || (descendants n).any (aggErrContrib opts.DeepLevel))
  | Node.mk p d fi err kids, hwf => by
    have hk : wfL kids = true := by
      simp only [wfN, Bool.and_eq_true] at hwf
      exact hwf.2
    have h := drsKids_spec opts kids
      (if 0 < opts.DeepLevel ∧ opts.DeepLevel ≤ (d : Int) then some "Depth too high" else none)
      hk
    constructor
    · simpa only [dirRecursiveSize, descendants] using h.1
    · simp only [dirRecursiveSize, descendants, h.2, Node.depth]
      split <;> rename_i hc
      · rw [decide_eq_true hc.1, decide_eq_true hc.2]
        simp
      · rw [not_and_or] at hc
        rcases hc with hc | hc
        · rw [decide_eq_false hc]
          simp
        · rw [decide_eq_false hc]
          simp

theorem drsKids_spec (opts : Options) :
    (ks : List Node) → (err : Option String) → wfL ks = true →
      (drsKids opts ks err).1 = sumNonDirSizes (descL ks)
      ∧ (drsKids opts ks err).2.isSome =
          (err.isSome || (descL ks).any (aggErrContrib opts.DeepLevel))
  | [], err, _ => by simp [drsKids, descL, sumNonDirSizes]
  | n :: rest, err, hwf => by
    have hn : wfN n = true := by
      simp only [wfL, Bool.and_eq_true] at hwf
      exact hwf.1
    have hr : wfL rest = true := by
      simp only [wfL, Bool.and_eq_true] at hwf
      exact hwf.2
    simp only [drsKids, descL]
    rcases hne : n.err with _ | e
    · rcases hdir : n.isDir with _ | _
      · -- error-free file: no children by well-formedness
        have hkids : n.nodes = [] := by
          cases n with
          | mk p d fi e kids =>
            simp only [Node.err] at hne
            simp only [Node.isDir] at hdir
            simp only [wfN, hne, Bool.and_eq_true, hdir] at hn
            simp only [Bool.or_eq_true] at hn
            rcases hn.1.2 with h | h
            · exact absurd h (by simp [hdir])
            · simpa using h
        have h := drsKids_spec opts rest err hr
        have hdesc : descendants n = [] := by
          cases n with
          | mk p d fi e kids =>
            simp only [Node.nodes] at hkids
            simp [descendants, hkids, descL]
        simp only [hne, Option.isSome_none, Bool.false_eq_true, if_false, hdir,
          Bool.not_false, if_true, h.1, h.2, sumNonDirSizes, hdesc,
          List.any_cons, List.any_append, List.any_nil, aggErrContrib]
        constructor
        · simp [hdir]
        · simp [hne, hdir]
      · -- error-free directory: recurse
        have hsub := drs_spec opts n hn
        have h := drsKids_spec opts rest
          (if (dirRecursiveSize opts n).2.isSome then (dirRecursiveSize opts n).2 else err) hr
        simp only [hne, Option.isSome_none, Bool.false_eq_true, if_false, hdir,
          Bool.not_true, sumNonDirSizes, List.any_cons, List.any_append]
        constructor
        · simp only [h.1, hsub.1, hdir, sumNonDirSizes_append]
          simp
        · rw [h.2]
          have hes : (if (dirRecursiveSize opts n).2.isSome then (dirRecursiveSize opts n).2
              else err).isSome = ((dirRecursiveSize opts n).2.isSome || err.isSome) := by
            rcases hrs : (dirRecursiveSize opts n).2 with _ | v <;> simp [hrs]
          rw [hes, hsub.2]
          simp only [aggErrContrib, hne, hdir, Option.isSome_none, Option.isNone_none,
            Bool.and_true, Bool.true_and, Bool.false_or]
          cases err.isSome <;> cases decide (0 < opts.DeepLevel) <;>
            cases decide (opts.DeepLevel ≤ (n.depth : Int)) <;>
            cases (descendants n).any (aggErrContrib opts.DeepLevel) <;>
            cases (descL rest).any (aggErrContrib opts.DeepLevel) <;> rfl
    · -- errored child: skipped, error recorded; no children by well-formedness
      have hkids : n.nodes = [] := by
        cases n with
        | mk p d fi e0 kids =>
          simp only [Node.err] at hne
          subst hne
          simp only [wfN, Bool.and_eq_true, List.isEmpty_eq_true] at hn
          simpa using hn.1.1.1
      have hdesc : descendants n = [] := by
        cases n with
        | mk p d fi e0 kids =>
          simp only [Node.nodes] at hkids
          simp [descendants, hkids, descL]
      have h := drsKids_spec opts rest (some e) hr
      simp only [hne, Option.isSome_some, if_true, h.1, h.2, sumNonDirSizes,
        hdesc, List.any_cons, List.any_append, List.any_nil, aggErrContrib, hne]
      constructor
      · have : n.isDir = true ∨ n.isDir = false := by
          cases n.isDir
          · exact Or.inr rfl
          · exact Or.inl rfl
        rcases this with h1 | h1
        · simp [h1]
        · -- errored non-dir: size is 0 because FileInfo is absent
          have hfi : n.fi = none := by
            cases n with
            | mk p d fi e0 kids =>
              simp only [Node.err] at hne
              subst hne
              simp only [Node.isDir] at h1
              simp only [wfN, Bool.and_eq_true, Bool.or_eq_true] at hn
              rcases hn.1.1.2 with h2 | h2
              · simpa using h2
              · exact absurd h2 (by simp [h1])
          have : n.size = 0 := by simp [Node.size, hfi]
          simp [h1, this]
      · simp

end

end GoTree

namespace GoTree

/-- A concrete well-formed tree: root (size 100) with file a (5),
directory d (50) containing file b (7) and a stat-failed entry, and
file c (11). -/
def c8node : Node :=
  ⟨"r", 0, some (mkFI "r" 100 true), none,
    [⟨"r/a", 1, some (mkFI "a" 5 false), none, []⟩,
     ⟨"r/d", 1, some (mkFI "d" 50 true), none,
       [⟨"r/d/b", 2, some (mkFI "b" 7 false), none, []⟩,
        ⟨"r/d/x", 2, none, some "open r/d/x: boom", []⟩]⟩,
     ⟨"r/c", 1, some (mkFI "c" 11 false), none, []⟩]⟩

/-- Claim C8: on a well-formed tree the size aggregate returns the sum
of the sizes of the non-directory descendants — directories contribute
their children's sum, never their own size — and it reports an error
exactly when some descendant recorded one or the depth guard fires at
a visited directory; in particular any recorded per-node error is
propagated while the (partial) sum is still returned. -/
theorem C8_dir_recursive_size (opts : Options) (node : Node) (hwf : wfN node = true) :
    (dirRecursiveSize opts node).1 = sumNonDirSizes (descendants node)
    ∧ (dirRecursiveSize opts node).2.isSome =
        ((decide (0 < opts.DeepLevel) && decide (opts.DeepLevel ≤ (node.depth : Int)))
          || (descendants node).any (aggErrContrib opts.DeepLevel))
    ∧ ((∃ n ∈ descendants node, n.err.isSome) →
        (dirRecursiveSize opts node).2.isSome = true) := by
  have h := drs_spec opts node hwf
  refine ⟨h.1, h.2, ?_⟩
  rintro ⟨n, hmem, herr⟩
  rw [h.2, Bool.or_eq_true, List.any_eq_true]
  exact Or.inr ⟨n, hmem, by simp [aggErrContrib, herr]⟩

/-- Claim C8, witness: the aggregate of the concrete tree sums the
files (5 + 7 + 11 = 23), skips the directory sizes (100, 50), and
still reports the recorded stat error. -/
theorem C8_dir_recursive_size_witness :
    (dirRecursiveSize {} c8node).1 = 23
    ∧ (dirRecursiveSize {} c8node).2.isSome = true := by
  have h := C8_dir_recursive_size {} c8node (by decide)
  refine ⟨h.1.trans (by decide), h.2.2 ?_⟩
  exact ⟨⟨"r/d/x", 2, none, some "open r/d/x: boom", []⟩, by decide, by decide⟩

end GoTree

namespace GoTree

/-! ## C4: the recursion guard on followed symlinks -/

theorem vpInsert_mono (q p : String) (vp : List String) (h : p ∈ vp) :
    p ∈ vpInsert q vp := by
  simp only [vpInsert]
  split
  · exact h
  · exact List.mem_cons_of_mem _ h

mutual

/-- `Visit` only ever inserts into the visited-path set. -/
theorem visitE_vp_mono (opts : Options) :
    (e : FSE) → (path : String) → (depth : Nat) → (vp : List String) →
      (p : String) → p ∈ vp → p ∈ (visitE opts e path depth vp).2.2.2
  | FSE.badStat msg, path, depth, vp, p, h => vpInsert_mono path p vp h
  | FSE.file m, path, depth, vp, p, h => by
    simp only [visitE]
    split
    · exact vpInsert_mono path p vp h
    · simp only [visitNoList]
      split
      · exact vpInsert_mono path p vp h
      · split
        · exact vpInsert_mono path p vp h
        · exact vpInsert_mono path p vp h
  | FSE.badDir m msg, path, depth, vp, p, h => by
    simp only [visitE]
    split
    · exact vpInsert_mono path p vp h
    · simp only [visitNoList]
      split
      · exact vpInsert_mono path p vp h
      · split
        · exact vpInsert_mono path p vp h
        · exact vpInsert_mono path p vp h
  | FSE.dir m ch, path, depth, vp, p, h => by
    simp only [visitE]
    split
    · exact vpInsert_mono path p vp h
    · split
      · exact vpInsert_mono path p vp h
      · split
        · exact vpInsert_mono path p vp h
        · exact visitKids_vp_mono opts ch path depth _ _ p (vpInsert_mono path p vp h)

theorem visitKids_vp_mono (opts : Options) :
    (ch : List (String × FSE)) → (path : String) → (depth : Nat) → (dm : Bool) →
      (vp : List String) → (p : String) → p ∈ vp →
        p ∈ (visitKids opts ch path depth dm vp).2.2.2
  | [], _, _, _, _, _, h => h
  | (name, ent) :: rest, path, depth, dm, vp, p, h => by
    simp only [visitKids]
    split
    · exact visitKids_vp_mono opts rest path depth dm vp p h
    · have h1 := visitE_vp_mono opts ent (joinPath path name) (depth + 1) vp p h
      have h2 := visitKids_vp_mono opts rest path depth dm
        (visitE opts ent (joinPath path name) (depth + 1) vp).2.2.2 p h1
      repeat' split
      all_goals exact h2

end

theorem visitAt_vp_mono (env : Env) (opts : Options) (path : String) (depth : Nat)
    (vp : List String) (p : String) (h : p ∈ vp) :
    p ∈ (visitAt env opts path depth vp).2.2.2 := by
  simp only [visitAt]
  split
  · exact visitE_vp_mono opts _ path depth vp p h
  · exact vpInsert_mono path p vp h

mutual

/-- More fuel never changes a successful render. -/
theorem printF_mono (env : Env) (opts : Options) :
    (fuel : Nat) → ∀ n ind vp r, printF env opts fuel n ind vp = some r →
      printF env opts (fuel + 1) n ind vp = some r
  | 0 => by
    intro n ind vp r h
    exact absurd h (by simp [printF])
  | fuel + 1 => by
    intro n ind vp r h
    rcases hne : n.err with _ | e
    · simp only [printF, hne] at h ⊢
      rcases hsd : symDeco env opts n vp (displayName env opts n) with ⟨nf, kd, v1⟩
      rw [hsd] at h
      simp only at h ⊢
      rcases hpl : printListF env opts fuel kd ind v1 with _ | ⟨o, k2, v2⟩
      · rw [hpl] at h
        exact absurd h (by simp)
      · rw [printListF_mono env opts fuel kd ind v1 _ hpl]
        rw [hpl] at h
        exact h
    · simp only [printF, hne] at h ⊢
      exact h

theorem printListF_mono (env : Env) (opts : Options) :
    (fuel : Nat) → ∀ ks ind vp r, printListF env opts fuel ks ind vp = some r →
      printListF env opts (fuel + 1) ks ind vp = some r
  | 0 => by
    intro ks ind vp r h
    exact absurd h (by simp [printListF])
  | fuel + 1 => by
    intro ks ind vp r h
    match ks with
    | [] => exact h
    | n :: rest =>
      simp only [printListF] at h ⊢
      rcases hp : printF env opts fuel n
          (ind ++ if opts.NoIndent then ""
            else if rest.isEmpty then "    " else "│   ") vp with _ | r1
      · rw [hp] at h
        exact absurd h (by simp)
      · rw [printF_mono env opts fuel _ _ _ _ hp]
        rw [hp] at h
        rcases r1 with ⟨o1, n2, vp2⟩
        simp only at h ⊢
        rcases hq : printListF env opts fuel rest ind vp2 with _ | r2
        · rw [hq] at h
          exact absurd h (by simp)
        · rw [printListF_mono env opts fuel rest ind vp2 _ hq]
          rw [hq] at h
          exact h

end

end GoTree

namespace GoTree

instance : DecidableEq (Except String FileInfo)
  | Except.ok a, Except.ok b => decidable_of_iff (a = b) (by simp)
  | Except.error a, Except.error b => decidable_of_iff (a = b) (by simp)
  | Except.ok _, Except.error _ => isFalse (by simp)
  | Except.error _, Except.ok _ => isFalse (by simp)

/-- A root whose single child is a self-referential symlink (the
symlink's canonical target is the symlink itself, as in the repo's
symlink tests). -/
def c4env : Env :=
  { root := FSE.dir (mkFI "" 0 true)
      [("root", FSE.dir (mkFI "root" 0 true)
        [("symlink", FSE.dir { mkFI "symlink" 0 true with isSymlink := true } [])])] }

def c4opts : Options := { FollowLink := true }

def c4root : Node := (visitAt c4env c4opts "root" 0 []).1

def c4vp : List String := (visitAt c4env c4opts "root" 0 []).2.2.2

def c4out : String := "root\n└── symlink -> root/symlink [recursive, not followed]\n"

/-- The self-referential symlink node as the traversal builds it. -/
def c4ln : Node :=
  ⟨"root/symlink", 1, some { mkFI "symlink" 0 true with isSymlink := true }, none, []⟩

/-- Claim C4: (1) with follow-symlinks on, a symlink to a directory
whose canonical target path is already in the visited set renders with
the `" [recursive, not followed]"` suffix and the renderer does not
descend into the target: it prints the node's own children and leaves
the visited set untouched; (2) the visited set only ever gains entries
during a traversal; (3) rendering the self-referential link terminates
in bounded steps: beyond the bound, every fuel yields the same fixed
output. -/
theorem C4_recursion_guard (env : Env) (opts : Options) (fuel : Nat) (node : Node)
    (indent : String) (vp : List String) (m : FileInfo)
    (hne : node.err = none) (hsym : node.isSymlink = true) (hfl : opts.FollowLink = true)
    (hstat : statM env (linkTargetPath env node) = Except.ok m) (hdir : m.isDir = true)
    (hmem : linkTargetPath env node ∈ vp) :
    (printF env opts (fuel + 1) node indent vp =
      match printListF env opts fuel node.nodes indent vp with
      | none => none
      | some (outK, kids2, vp2) =>
        some (propsBlock (if !node.isDir then fileProps env opts node else dirProps opts node)
          ++ (displayName env opts node ++ " -> " ++ linkText env opts node
              ++ " [recursive, not followed]")
          ++ previewSuffix env opts node.path ++ "\n" ++ outK,
          { node with nodes := kids2 }, vp2))
    ∧ (∀ path depth vp2 p, p ∈ vp2 → p ∈ (visitAt env opts path depth vp2).2.2.2)
    ∧ (∀ f, printTop c4env c4opts (f + 4) c4root c4vp = some (c4out, c4root, c4vp)) := by
  refine ⟨?_, ?_, ?_⟩
  · have hsd : symDeco env opts node vp (displayName env opts node) =
        (displayName env opts node ++ " -> " ++ linkText env opts node
          ++ " [recursive, not followed]", node.nodes, vp) := by
      simp [symDeco, hsym, hfl, hstat, hdir, hmem]
    simp only [printF, hne, hsd]
  · intro path depth vp2 p hp
    exact visitAt_vp_mono env opts path depth vp2 p hp
  · intro f
    induction f with
    | zero => decide
    | succ k ih => exact printF_mono c4env c4opts (k + 4) c4root "" c4vp _ ih

/-- Claim C4, witness: the guard applied to the concrete
self-referential symlink, the visited set keeping an entry, and the
fixed rendering at two different fuels. -/
theorem C4_recursion_guard_witness :
    printF c4env c4opts 2 c4ln "" c4vp =
      some ("symlink -> root/symlink [recursive, not followed]\n", c4ln, c4vp)
    ∧ ("root" ∈ (visitAt c4env c4opts "nowhere" 0 ["root"]).2.2.2)
    ∧ printTop c4env c4opts 4 c4root c4vp = some (c4out, c4root, c4vp)
    ∧ printTop c4env c4opts 9 c4root c4vp = some (c4out, c4root, c4vp) := by
  have H := C4_recursion_guard c4env c4opts 1 c4ln "" c4vp
    { mkFI "symlink" 0 true with isSymlink := true }
    (by decide) (by decide) (by decide) (by decide) (by decide) (by decide)
  refine ⟨H.1.trans (by decide), ?_, H.2.2 0, H.2.2 5⟩
  exact H.2.1 "nowhere" 0 ["root"] "root" (by decide)

end GoTree

namespace GoTree

/-! ## C3: the depth invariant -/

mutual

/-- Every child's `depth` is its parent's plus one, recursively. -/
def depthOK : Node → Bool
  | Node.mk _ d _ _ kids => depthOKL d kids

def depthOKL (d : Nat) : List Node → Bool
  | [] => true
  | n :: rest => (decide (n.depth = d + 1) && depthOK n) && depthOKL d rest

end

theorem depthOKL_eq_all (d : Nat) (l : List Node) :
    depthOKL d l = l.all (fun n => decide (n.depth = d + 1) && depthOK n) := by
  induction l with
  | nil => rfl
  | cons n rest ih => simp [depthOKL, ih, List.all_cons]

theorem depthOKL_perm (d : Nat) (l1 l2 : List Node) (hp : List.Perm l1 l2) :
    depthOKL d l1 = depthOKL d l2 := by
  rw [depthOKL_eq_all, depthOKL_eq_all]
  rcases h2 : l2.all (fun n => decide (n.depth = d + 1) && depthOK n) with _ | _
  · rw [List.all_eq_false] at h2 ⊢
    obtain ⟨x, hx, hfx⟩ := h2
    exact ⟨x, (hp.mem_iff).2 hx, hfx⟩
  · rw [List.all_eq_true] at h2 ⊢
    intro x hx
    exact h2 x ((hp.mem_iff).1 hx)

theorem visitNoList_depth (opts : Options) (m : FileInfo) (msg path : String)
    (depth : Nat) (vp : List String) :
    (visitNoList opts m msg path depth vp).1.depth = depth
    ∧ depthOK (visitNoList opts m msg path depth vp).1 = true := by
  simp only [visitNoList]
  split
  · exact ⟨rfl, rfl⟩
  · split
    · exact ⟨rfl, rfl⟩
    · exact ⟨rfl, rfl⟩

mutual

/-- Every tree one `Visit` traversal builds satisfies the depth
invariant, and the root keeps the depth it was called with. -/
theorem visitE_depth (opts : Options) :
    (e : FSE) → ∀ path depth vp,
      (visitE opts e path depth vp).1.depth = depth
      ∧ depthOK (visitE opts e path depth vp).1 = true
  | FSE.badStat msg, path, depth, vp => ⟨rfl, rfl⟩
  | FSE.file m, path, depth, vp => by
    simp only [visitE]
    split
    · exact ⟨rfl, rfl⟩
    · exact visitNoList_depth opts m _ path depth _
  | FSE.badDir m msg, path, depth, vp => by
    simp only [visitE]
    split
    · exact ⟨rfl, rfl⟩
    · exact visitNoList_depth opts m _ path depth _
  | FSE.dir m ch, path, depth, vp => by
    have hk := visitKids_depth opts ch path depth
    simp only [visitE]
    split
    · exact ⟨rfl, rfl⟩
    · split
      · exact ⟨rfl, rfl⟩
      · split
        · exact ⟨rfl, rfl⟩
        · refine ⟨rfl, ?_⟩
          simp only [depthOK]
          split
          · rw [depthOKL_perm depth _ _ (sortNodes_perm opts _)]
            exact hk _ _
          · exact hk _ _

theorem visitKids_depth (opts : Options) :
    (ch : List (String × FSE)) → ∀ path depth dm vp,
      depthOKL depth (visitKids opts ch path depth dm vp).1 = true
  | [], _, _, _, _ => rfl
  | (name, ent) :: rest, path, depth, dm, vp => by
    simp only [visitKids]
    split
    · exact visitKids_depth opts rest path depth dm vp
    · have he := visitE_depth opts ent (joinPath path name) (depth + 1) vp
      have hr := visitKids_depth opts rest path depth dm
        (visitE opts ent (joinPath path name) (depth + 1) vp).2.2.2
      repeat' split
      all_goals simp [depthOKL, he.1, he.2, hr]

end

/-- The traversal entry point also yields depth-invariant trees. -/
theorem visitAt_depth (env : Env) (opts : Options) (path : String) (depth : Nat)
    (vp : List String) :
    (visitAt env opts path depth vp).1.depth = depth
    ∧ depthOK (visitAt env opts path depth vp).1 = true := by
  simp only [visitAt]
  split
  · exact visitE_depth opts _ path depth vp
  · exact ⟨rfl, rfl⟩

end GoTree

namespace GoTree

/-- A symlink (at depth 2) pointing outside the traversal root, at a
directory with one file. -/
def c3env : Env :=
  { root := FSE.dir (mkFI "" 0 true)
      [("r", FSE.dir (mkFI "r" 0 true)
        [("main", FSE.dir (mkFI "main" 0 true)
          [("ln", FSE.file { mkFI "ln" 0 false with
              isSymlink := true, linkTarget := some "other" })])]),
       ("other", FSE.dir (mkFI "other" 0 true)
         [("f", FSE.file (mkFI "f" 3 false))])] }

def c3opts : Options := { FollowLink := true }

def c3root : Node := (visitAt c3env c3opts "r" 0 []).1

def c3vp : List String := (visitAt c3env c3opts "r" 0 []).2.2.2

/-- The tree as it stands after rendering with follow-symlinks: the
symlink node has been given the re-visited target's children. -/
def c3after : Node :=
  ((printTop c3env c3opts 9 c3root c3vp).map (fun r => r.2.1)).getD c3root

/-- Claim C3 (corrected): every tree built by one `Visit` traversal
satisfies `child.depth = parent.depth + 1` throughout, and the tree
keeps the depth the traversal was started with; but the children a
`FollowLink` substitution attaches under a rendered symlink come from
a fresh traversal started at depth 0, so their depths restart at 1
instead of continuing from the symlink's depth. -/
theorem C3_depth_invariant (env : Env) (opts : Options) (path : String)
    (depth : Nat) (vp : List String) :
    (visitAt env opts path depth vp).1.depth = depth
    ∧ depthOK (visitAt env opts path depth vp).1 = true :=
  visitAt_depth env opts path depth vp

/-- Claim C3, counterexample to the frozen wording: after rendering
with follow-symlinks, the symlink at depth 2 carries a substituted
child of depth 1 (not 3), so the substituted tree violates the depth
invariant. -/
theorem C3_depth_invariant_counterexample :
    (printTop c3env c3opts 9 c3root c3vp).isSome = true
    ∧ depthOK c3root = true
    ∧ depthOK c3after = false
    ∧ c3after.nodes.map (fun m =>
        (m.depth, m.nodes.map (fun l => (l.depth, l.nodes.map Node.depth))))
      = [(1, [(2, [1])])] := by
  refine ⟨by decide, by decide, by decide, by decide⟩

end GoTree

namespace GoTree

/-! ## C1: counts versus rendered lines -/

/-- All nodes of a tree: the root and its strict descendants. -/
def allNodes (t : Node) : List Node := t :: descendants t

def cntDirs (l : List Node) : Nat := l.countP (fun n => n.isDir)

/-- Error-free non-directories: the entries `Visit` counts as files. -/
def cntFiles (l : List Node) : Nat :=
  l.countP (fun n => n.err.isNone && n.fi.isSome && !n.isDir)

def cntErrs (l : List Node) : Nat := l.countP (fun n => n.err.isSome)

/-- Directories whose listing failed: stat succeeded (so they were
counted as directories) but the node renders as an error line. -/
def cntBadDirs (l : List Node) : Nat :=
  l.countP (fun n => n.err.isSome && n.fi.isSome && n.isDir)

/-- The one line `print` emits for a node itself when `FollowLink` is
off (children excluded; the branch glyphs are prepended by the
parent). -/
def nodeLine (env : Env) (opts : Options) (node : Node) : String :=
  match node.err with
  | some e =>
    (if !opts.FullPath then basePath node.path else node.path)
      ++ " [" ++ shortErr e ++ "]\n"
  | none =>
    let nm := displayName env opts node
    let nameF := if node.isSymlink then nm ++ " -> " ++ linkText env opts node else nm
    propsBlock (if !node.isDir then fileProps env opts node else dirProps opts node)
      ++ nameF ++ previewSuffix env opts node.path ++ "\n"

theorem countNL_append (a b : String) :
    countNL (a ++ b) = countNL a + countNL b := by
  simp [countNL, String.data_append]

/-- Without `FollowLink` the symlink paragraph only decorates the name:
children and visited set pass through. -/
theorem symDeco_nofollow (env : Env) (opts : Options) (node : Node) (vp : List String)
    (nm : String) (hFL : opts.FollowLink = false) :
    symDeco env opts node vp nm =
      (if node.isSymlink then nm ++ " -> " ++ linkText env opts node else nm,
        node.nodes, vp) := by
  simp only [symDeco, hFL, Bool.false_eq_true, if_false]
  split
  · rfl
  · rfl

end GoTree

namespace GoTree

mutual

/-- Without `FollowLink`, a successful render of a well-formed tree
emits exactly one line per node (provided each node's own line is a
single line), returns the tree unchanged and leaves the visited set
alone. -/
theorem printF_count (env : Env) (opts : Options) (hFL : opts.FollowLink = false) :
    (fuel : Nat) → ∀ t ind vp r,
      printF env opts fuel t ind vp = some r →
      wfN t = true →
      countNL ind = 0 →
      (∀ n ∈ allNodes t, countNL (nodeLine env opts n) = 1) →
      countNL r.1 = (allNodes t).length ∧ r.2.1 = t ∧ r.2.2 = vp
  | 0 => by
    intro t ind vp r h _ _ _
    exact absurd h (by simp [printF])
  | fuel + 1 => by
    intro t ind vp r h hwf hind hlines
    obtain ⟨p, d, fi, e, kids⟩ := t
    rcases hne : e with _ | e0
    · -- error-free node
      subst hne
      have hkidswf : wfL kids = true := by
        simp only [wfN, Bool.and_eq_true] at hwf
        exact hwf.2
      simp only [printF, Node.err] at h
      rw [symDeco_nofollow env opts _ vp _ hFL] at h
      simp only at h
      rcases hpl : printListF env opts fuel (Node.mk p d fi none kids).nodes ind vp
        with _ | ⟨outK, kids2, vp2⟩
      · rw [hpl] at h
        exact absurd h (by simp)
      · rw [hpl] at h
        simp only [Node.nodes] at hpl
        have hIH := printListF_count env opts hFL fuel kids ind vp (outK, kids2, vp2)
          hpl hkidswf hind
          (fun n hn => hlines n (by
            simp only [allNodes, descendants, List.mem_cons]
            exact Or.inr hn))
        simp only at h hIH
        have hr := h.symm
        injection hr with hr1
        subst hr1
        have hline1 := hlines (Node.mk p d fi none kids) (by simp [allNodes])
        simp only [nodeLine, Node.err] at hline1
        refine ⟨?_, ?_, ?_⟩
        · simp only [countNL_append] at hline1 ⊢
          simp only [allNodes, descendants, List.length_cons]
          omega
        · simp only [hIH.2.1]
        · exact hIH.2.2
    · -- errored node: single line, nothing else
      subst hne
      have hkids : kids = [] := by
        simp only [wfN, Bool.and_eq_true, List.isEmpty_eq_true] at hwf
        exact hwf.1.1.1
      subst hkids
      simp only [printF, Node.err] at h
      have hr := h.symm
      injection hr with hr1
      subst hr1
      have hline1 := hlines (Node.mk p d fi (some e0) []) (by simp [allNodes])
      simp only [nodeLine, Node.err] at hline1
      refine ⟨?_, rfl, rfl⟩
      simp only [allNodes, descendants, descL, List.length_cons, List.length_nil]
      exact hline1

theorem printListF_count (env : Env) (opts : Options) (hFL : opts.FollowLink = false) :
    (fuel : Nat) → ∀ ks ind vp r,
      printListF env opts fuel ks ind vp = some r →
      wfL ks = true →
      countNL ind = 0 →
      (∀ n ∈ descL ks, countNL (nodeLine env opts n) = 1) →
      countNL r.1 = (descL ks).length ∧ r.2.1 = ks ∧ r.2.2 = vp
  | 0 => by
    intro ks ind vp r h _ _ _
    exact absurd h (by simp [printListF])
  | fuel + 1 => by
    intro ks ind vp r h hwf hind hlines
    match ks with
    | [] =>
      have hr := h.symm
      injection hr with hr1
      subst hr1
      exact ⟨rfl, rfl, rfl⟩
    | n :: rest =>
      have hnwf : wfN n = true := by
        simp only [wfL, Bool.and_eq_true] at hwf
        exact hwf.1
      have hrwf : wfL rest = true := by
        simp only [wfL, Bool.and_eq_true] at hwf
        exact hwf.2
      simp only [printListF] at h
      rcases hp : printF env opts fuel n
          (ind ++ if opts.NoIndent then ""
            else if rest.isEmpty then "    " else "│   ") vp with _ | ⟨o1, n2, vp2⟩
      · rw [hp] at h
        exact absurd h (by simp)
      · rw [hp] at h
        have hind2 : countNL (ind ++ if opts.NoIndent then ""
            else if rest.isEmpty then "    " else "│   ") = 0 := by
          rw [countNL_append, hind]
          split
          · rfl
          · split
            · rfl
            · rfl
        have hIH1 := printF_count env opts hFL fuel n _ vp (o1, n2, vp2) hp hnwf hind2
          (fun m hm => hlines m (by
            simp only [descL, List.mem_cons, List.mem_append, allNodes] at hm ⊢
            rcases hm with hm | hm
            · exact Or.inl hm
            · exact Or.inr (Or.inl hm)))
        simp only at h hIH1
        rw [hIH1.2.2] at h
        rcases hq : printListF env opts fuel rest ind vp with _ | ⟨o2, rest2, vp3⟩
        · rw [hq] at h
          exact absurd h (by simp)
        · rw [hq] at h
          have hIH2 := printListF_count env opts hFL fuel rest ind vp (o2, rest2, vp3)
            hq hrwf hind
            (fun m hm => hlines m (by
              simp only [descL, List.mem_cons, List.mem_append]
              exact Or.inr (Or.inr hm)))
          simp only at h hIH2
          have hr := h.symm
          injection hr with hr1
          subst hr1
          refine ⟨?_, ?_, hIH2.2.2⟩
          · have hpfx : countNL (if opts.NoIndent then ""
                else if rest.isEmpty then ind ++ "└── " else ind ++ "├── ") = 0 := by
              split
              · rfl
              · split
                · rw [countNL_append, hind]
                  rfl
                · rw [countNL_append, hind]
                  rfl
            simp only [countNL_append, hpfx, hIH1.1, hIH2.1, descL, allNodes,
              List.length_cons, List.length_append]
            omega
          · simp only [hIH1.2.1, hIH2.2.1]

end

end GoTree

namespace GoTree

theorem wfL_eq_all (l : List Node) : wfL l = l.all wfN := by
  induction l with
  | nil => rfl
  | cons n rest ih => simp [wfL, ih, List.all_cons]

theorem wfL_perm (l1 l2 : List Node) (hp : List.Perm l1 l2) : wfL l1 = wfL l2 := by
  rw [wfL_eq_all, wfL_eq_all]
  rcases h2 : l2.all wfN with _ | _
  · rw [List.all_eq_false] at h2 ⊢
    obtain ⟨x, hx, hfx⟩ := h2
    exact ⟨x, (hp.mem_iff).2 hx, hfx⟩
  · rw [List.all_eq_true] at h2 ⊢
    intro x hx
    exact h2 x ((hp.mem_iff).1 hx)

theorem visitNoList_wf (opts : Options) (m : FileInfo) (msg path : String)
    (depth : Nat) (vp : List String) (hm : m.isDir = true) :
    wfN (visitNoList opts m msg path depth vp).1 = true := by
  simp only [visitNoList]
  split
  · simp [wfN, wfL, hm]
  · split
    · simp [wfN, wfL, hm]
    · simp [wfN, wfL, hm]

mutual

/-- Every tree `Visit` builds is well-formed. -/
theorem visitE_wf (opts : Options) :
    (e : FSE) → ∀ path depth vp, wfN (visitE opts e path depth vp).1 = true
  | FSE.badStat msg, path, depth, vp => by simp [visitE, wfN, wfL]
  | FSE.file m, path, depth, vp => by
    simp only [visitE]
    split
    · simp [wfN, wfL]
    · rename_i hm
      exact visitNoList_wf opts m _ path depth _ (by
        rcases h : m.isDir with _ | _
        · rw [h] at hm
          exact absurd rfl hm
        · rfl)
  | FSE.badDir m msg, path, depth, vp => by
    simp only [visitE]
    split
    · simp [wfN, wfL]
    · rename_i hm
      exact visitNoList_wf opts m _ path depth _ (by
        rcases h : m.isDir with _ | _
        · rw [h] at hm
          exact absurd rfl hm
        · rfl)
  | FSE.dir m ch, path, depth, vp => by
    have hk := visitKids_wf opts ch path depth
    simp only [visitE]
    split
    · simp [wfN, wfL]
    · rename_i hm
      have hdir : m.isDir = true := by
        rcases h : m.isDir with _ | _
        · rw [h] at hm
          exact absurd rfl hm
        · rfl
      split
      · simp [wfN, wfL, hdir]
      · split
        · simp [wfN, wfL, hdir]
        · simp only [wfN, Bool.and_eq_true]
          refine ⟨⟨by simp, by simp [Node.fi, hdir]⟩, ?_⟩
          split
          · rw [wfL_perm _ _ (sortNodes_perm opts _)]
            exact hk _ _
          · exact hk _ _

theorem visitKids_wf (opts : Options) :
    (ch : List (String × FSE)) → ∀ path depth dm vp,
      wfL (visitKids opts ch path depth dm vp).1 = true
  | [], _, _, _, _ => rfl
  | (name, ent) :: rest, path, depth, dm, vp => by
    simp only [visitKids]
    split
    · exact visitKids_wf opts rest path depth dm vp
    · have he := visitE_wf opts ent (joinPath path name) (depth + 1) vp
      have hr := visitKids_wf opts rest path depth dm
        (visitE opts ent (joinPath path name) (depth + 1) vp).2.2.2
      repeat' split
      all_goals simp [wfL, he, hr]

end

theorem visitAt_wf (env : Env) (opts : Options) (path : String) (depth : Nat)
    (vp : List String) : wfN (visitAt env opts path depth vp).1 = true := by
  simp only [visitAt]
  split
  · exact visitE_wf opts _ path depth vp
  · simp [wfN, wfL]

end GoTree

namespace GoTree

theorem descL_eq_bind (l : List Node) :
    descL l = l.bind (fun n => n :: descendants n) := by
  induction l with
  | nil => rfl
  | cons n rest ih => simp [descL, ih]

theorem descL_perm (l1 l2 : List Node) (hp : List.Perm l1 l2) :
    List.Perm (descL l1) (descL l2) := by
  rw [descL_eq_bind, descL_eq_bind]
  exact hp.bind_right _

theorem visitNoList_counts (opts : Options) (m : FileInfo) (msg path : String)
    (depth : Nat) (vp : List String) (hm : m.isDir = true) :
    (visitNoList opts m msg path depth vp).2.1
      = cntDirs (descendants (visitNoList opts m msg path depth vp).1)
        + (if depth ≠ 0 ∧ (visitNoList opts m msg path depth vp).1.isDir = true
           then 1 else 0)
    ∧ (visitNoList opts m msg path depth vp).2.2.1
      = cntFiles (allNodes (visitNoList opts m msg path depth vp).1) := by
  simp only [visitNoList]
  split
  · constructor
    · simp [cntDirs, descendants, descL, Node.isDir, hm]
    · simp [cntFiles, allNodes, descendants, descL, List.countP_cons, Node.isDir, hm]
  · split
    · constructor
      · simp [cntDirs, descendants, descL, Node.isDir, hm]
      · simp [cntFiles, allNodes, descendants, descL, List.countP_cons, Node.isDir, hm]
    · constructor
      · simp [cntDirs, descendants, descL, Node.isDir, hm]
      · simp [cntFiles, allNodes, descendants, descL, List.countP_cons, Node.err]

theorem cntDirs_cons (n : Node) (l : List Node) :
    cntDirs (n :: l) = cntDirs l + (if n.isDir = true then 1 else 0) := by
  simp [cntDirs, List.countP_cons]

theorem cntDirs_append (a b : List Node) :
    cntDirs (a ++ b) = cntDirs a + cntDirs b := by
  simp [cntDirs, List.countP_append]

theorem cntFiles_cons (n : Node) (l : List Node) :
    cntFiles (n :: l) = cntFiles l
      + (if (n.err.isNone && n.fi.isSome && !n.isDir) = true then 1 else 0) := by
  simp [cntFiles, List.countP_cons]

theorem cntFiles_append (a b : List Node) :
    cntFiles (a ++ b) = cntFiles a + cntFiles b := by
  simp [cntFiles, List.countP_append]

theorem cntDirs_descL_sortIte (opts : Options) (l : List Node) :
    cntDirs (descL (if (!opts.NoSort) = true then sortNodes opts l else l))
      = cntDirs (descL l) := by
  split
  · exact (descL_perm _ _ (sortNodes_perm opts l)).countP_eq _
  · rfl

theorem cntFiles_descL_sortIte (opts : Options) (l : List Node) :
    cntFiles (descL (if (!opts.NoSort) = true then sortNodes opts l else l))
      = cntFiles (descL l) := by
  split
  · exact (descL_perm _ _ (sortNodes_perm opts l)).countP_eq _
  · rfl

mutual

/-- `Visit`'s directory count is the number of stat-successful
directories strictly below the call (plus the node itself when it is a
non-root directory), and its file count is the number of error-free
non-directories in the built tree. -/
theorem visitE_counts (opts : Options) :
    (e : FSE) → ∀ path depth vp,
      (visitE opts e path depth vp).2.1
        = cntDirs (descendants (visitE opts e path depth vp).1)
          + (if depth ≠ 0 ∧ (visitE opts e path depth vp).1.isDir = true then 1 else 0)
      ∧ (visitE opts e path depth vp).2.2.1
        = cntFiles (allNodes (visitE opts e path depth vp).1)
  | FSE.badStat msg, path, depth, vp => by
    constructor
    · simp [visitE, cntDirs, descendants, descL, Node.isDir, Node.fi]
    · simp [visitE, cntFiles, allNodes, descendants, descL, List.countP_cons, Node.err]
  | FSE.file m, path, depth, vp => by
    simp only [visitE]
    split
    · rename_i hm
      have hdf : m.isDir = false := by simpa using hm
      constructor
      · simp [cntDirs, descendants, descL, Node.isDir, Node.fi, hdf]
      · simp [cntFiles, allNodes, descendants, descL, List.countP_cons, Node.err,
          Node.fi, Node.isDir, hdf]
    · rename_i hm
      exact visitNoList_counts opts m _ path depth _ (by simpa using hm)
  | FSE.badDir m msg, path, depth, vp => by
    simp only [visitE]
    split
    · rename_i hm
      have hdf : m.isDir = false := by simpa using hm
      constructor
      · simp [cntDirs, descendants, descL, Node.isDir, Node.fi, hdf]
      · simp [cntFiles, allNodes, descendants, descL, List.countP_cons, Node.err,
          Node.fi, Node.isDir, hdf]
    · rename_i hm
      exact visitNoList_counts opts m _ path depth _ (by simpa using hm)
  | FSE.dir m ch, path, depth, vp => by
    have hk := visitKids_counts opts ch path depth
    simp only [visitE]
    split
    · rename_i hm
      have hdf : m.isDir = false := by simpa using hm
      constructor
      · simp [cntDirs, descendants, descL, Node.isDir, Node.fi, hdf]
      · simp [cntFiles, allNodes, descendants, descL, List.countP_cons, Node.err,
          Node.fi, Node.isDir, hdf]
    · rename_i hm
      have hdir : m.isDir = true := by simpa using hm
      split
      · constructor
        · simp [cntDirs, descendants, descL, Node.isDir, Node.fi, hdir]
        · simp [cntFiles, allNodes, descendants, descL, List.countP_cons, Node.err,
            Node.fi, Node.isDir, hdir]
      · split
        · constructor
          · simp [cntDirs, descendants, descL, Node.isDir, Node.fi, hdir]
          · simp [cntFiles, allNodes, descendants, descL, List.countP_cons, Node.err,
              Node.fi, Node.isDir, hdir]
        · constructor
          · simp only [descendants]
            rw [cntDirs_descL_sortIte, (hk _ _).1]
            by_cases hd0 : depth = 0 <;> simp [hd0, Node.isDir, Node.fi, hdir] <;> omega
          · simp only [allNodes, descendants]
            rw [cntFiles_cons, cntFiles_descL_sortIte, (hk _ _).2]
            simp [Node.err, Node.fi, Node.isDir, hdir]

theorem visitKids_counts (opts : Options) :
    (ch : List (String × FSE)) → ∀ path depth dm vp,
      (visitKids opts ch path depth dm vp).2.1
        = cntDirs (descL (visitKids opts ch path depth dm vp).1)
      ∧ (visitKids opts ch path depth dm vp).2.2.1
        = cntFiles (descL (visitKids opts ch path depth dm vp).1)
  | [], _, _, _, _ => by simp [visitKids, descL, cntDirs, cntFiles]
  | (name, ent) :: rest, path, depth, dm, vp => by
    simp only [visitKids]
    split
    · exact visitKids_counts opts rest path depth dm vp
    · have he := visitE_counts opts ent (joinPath path name) (depth + 1) vp
      have hr := visitKids_counts opts rest path depth dm
        (visitE opts ent (joinPath path name) (depth + 1) vp).2.2.2
      have he1 : (visitE opts ent (joinPath path name) (depth + 1) vp).2.1
          = cntDirs (descendants (visitE opts ent (joinPath path name) (depth + 1) vp).1)
            + (if (visitE opts ent (joinPath path name) (depth + 1) vp).1.isDir = true
               then 1 else 0) := by
        rw [he.1]
        congr 1
        simp
      have he2 : (visitE opts ent (joinPath path name) (depth + 1) vp).2.2.1
          = cntFiles (descendants (visitE opts ent (joinPath path name) (depth + 1) vp).1)
            + (if ((visitE opts ent (joinPath path name) (depth + 1) vp).1.err.isNone
                && (visitE opts ent (joinPath path name) (depth + 1) vp).1.fi.isSome
                && !(visitE opts ent (joinPath path name) (depth + 1) vp).1.isDir) = true
               then 1 else 0) := by
        rw [he.2]
        simp only [allNodes, cntFiles_cons]
      repeat' split
      all_goals refine ⟨?_, ?_⟩
      all_goals first
        | exact hr.1
        | exact hr.2
        | (simp only [descL, cntDirs_cons, cntDirs_append, he1, hr.1]
           omega)
        | (simp only [descL, cntFiles_cons, cntFiles_append, he2, hr.2]
           omega)

end

end GoTree

namespace GoTree

theorem cntErrs_cons (n : Node) (l : List Node) :
    cntErrs (n :: l) = cntErrs l + (if n.err.isSome = true then 1 else 0) := by
  simp [cntErrs, List.countP_cons]

theorem cntBadDirs_cons (n : Node) (l : List Node) :
    cntBadDirs (n :: l) = cntBadDirs l
      + (if (n.err.isSome && n.fi.isSome && n.isDir) = true then 1 else 0) := by
  simp [cntBadDirs, List.countP_cons]

/-- The per-node shape condition the counting identity needs. -/
def flatWf (n : Node) : Bool :=
  match n.err with
  | some _ => n.fi.isNone || n.isDir
  | none => n.fi.isSome

mutual

theorem wfN_flat : (t : Node) → wfN t = true → ∀ n ∈ allNodes t, flatWf n = true
  | Node.mk p d fi e kids, h => by
    simp only [wfN, Bool.and_eq_true] at h
    intro n hn
    simp only [allNodes, descendants, List.mem_cons] at hn
    rcases hn with hn | hn
    · subst hn
      rcases he : e with _ | e0
      · simp only [flatWf, Node.err, Node.fi]
        rw [he] at h
        exact h.1.1
      · simp only [flatWf, Node.err, Node.fi, Node.isDir]
        rw [he] at h
        simp only [Bool.and_eq_true] at h
        exact h.1.1.2
    · exact wfL_flat kids h.2 n hn

theorem wfL_flat : (l : List Node) → wfL l = true → ∀ n ∈ descL l, flatWf n = true
  | [], _, n, hn => by simp [descL] at hn
  | m :: rest, h, n, hn => by
    simp only [wfL, Bool.and_eq_true] at h
    simp only [descL, List.mem_cons, List.mem_append] at hn
    rcases hn with hn | hn | hn
    · subst hn
      exact wfN_flat n h.1 n (by simp [allNodes])
    · exact wfN_flat m h.1 n (by simp [allNodes, hn])
    · exact wfL_flat rest h.2 n hn

end

/-- The per-node bookkeeping identity: counted dirs plus counted files
plus error lines equals total lines plus listing-failed dirs. -/
theorem count_identity : (l : List Node) → (∀ n ∈ l, flatWf n = true) →
    cntDirs l + cntFiles l + cntErrs l = l.length + cntBadDirs l
  | [], _ => rfl
  | n :: rest, h => by
    have hn := h n (List.mem_cons_self n rest)
    have ih := count_identity rest (fun m hm => h m (List.mem_cons_of_mem n hm))
    simp only [cntDirs_cons, cntFiles_cons, cntErrs_cons, cntBadDirs_cons,
      List.length_cons]
    rcases hne : n.err with _ | e0 <;> rcases hfi : n.fi with _ | m0
    · simp_all [flatWf, Node.isDir] <;> omega
    · rcases hd : m0.isDir with _ | _ <;> simp_all [flatWf, Node.isDir] <;> omega
    · simp_all [flatWf, Node.isDir] <;> omega
    · rcases hd : m0.isDir with _ | _ <;> simp_all [flatWf, Node.isDir] <;> omega

/-- `Visit` rooted at a path: the same count characterisation. -/
theorem visitAt_counts (env : Env) (opts : Options) (path : String) (depth : Nat)
    (vp : List String) :
    (visitAt env opts path depth vp).2.1
      = cntDirs (descendants (visitAt env opts path depth vp).1)
        + (if depth ≠ 0 ∧ (visitAt env opts path depth vp).1.isDir = true then 1 else 0)
    ∧ (visitAt env opts path depth vp).2.2.1
      = cntFiles (allNodes (visitAt env opts path depth vp).1) := by
  rcases hres : resolveM env path with _ | e
  · simp only [visitAt, hres]
    constructor
    · simp [cntDirs, descendants, descL, Node.isDir, Node.fi]
    · simp [cntFiles, allNodes, descendants, descL, List.countP_cons, Node.err]
  · simp only [visitAt, hres]
    exact visitE_counts opts e path depth vp

end GoTree

namespace GoTree

/-- A root directory whose single child is a directory that stats but
whose listing fails: `Visit` counts it as a directory, `print` renders
it as an error line. -/
def c1env : Env :=
  { root := FSE.dir (mkFI "" 0 true)
      [("r", FSE.dir (mkFI "r" 0 true)
        [("bad", FSE.badDir (mkFI "bad" 0 true) "open r/bad: boom")])] }

/-- An error-free tree: root `w` with file `a` and directory `sub`
containing file `b`. -/
def c1wenv : Env :=
  { root := FSE.dir (mkFI "" 0 true)
      [("w", FSE.dir (mkFI "w" 0 true)
        [("a", FSE.file (mkFI "a" 1 false)),
         ("sub", FSE.dir (mkFI "sub" 0 true) [("b", FSE.file (mkFI "b" 2 false))])])] }

def c1wt : Node := (visitAt c1wenv {} "w" 0 []).1

def c1wvp : List String := (visitAt c1wenv {} "w" 0 []).2.2.2

def c1wout : String := "w\n├── a\n└── sub\n    └── b\n"

/-- Claim C1 (corrected): without `FollowLink`, for the tree one
traversal builds and a successful render of it,
`dirs + files + errorLines + (1 if the root line is an error-free
directory) = totalLines + listingFailedDirs`: the counts equal the
non-error line count minus the root's own non-error directory line
ONLY up to the directories whose `ReadDir` failed, which `Visit`
counts as directories but `print` renders as error lines.  Dropped
children are absent from both: the equation needs no correction for
them.  (Each node's own rendered line is assumed to be a single line,
i.e. names, annotations and error texts contain no newline.) -/
theorem C1_counts_vs_lines (env : Env) (opts : Options) (path : String)
    (vp0 : List String) (fuel : Nat) (t t2 : Node) (d f : Nat)
    (vp vp2 : List String) (out : String)
    (hFL : opts.FollowLink = false)
    (hv : visitAt env opts path 0 vp0 = (t, d, f, vp))
    (hp : printF env opts fuel t "" vp = some (out, t2, vp2))
    (hlines : ∀ n ∈ allNodes t, countNL (nodeLine env opts n) = 1) :
    d + f + cntErrs (allNodes t)
        + (if t.err = none ∧ t.isDir = true then 1 else 0)
      = countNL out + cntBadDirs (descendants t)
    ∧ t2 = t ∧ vp2 = vp := by
  have ht : (visitAt env opts path 0 vp0).1 = t := by rw [hv]
  have hdv : (visitAt env opts path 0 vp0).2.1 = d := by rw [hv]
  have hfv : (visitAt env opts path 0 vp0).2.2.1 = f := by rw [hv]
  have hwf : wfN t = true := ht ▸ visitAt_wf env opts path 0 vp0
  have hc := visitAt_counts env opts path 0 vp0
  rw [hdv, hfv, ht] at hc
  have hd2 : d = cntDirs (descendants t) := by
    rw [hc.1]
    simp
  have hf2 : f = cntFiles (allNodes t) := hc.2
  have hr := printF_count env opts hFL fuel t "" vp (out, t2, vp2) hp hwf rfl hlines
  simp only at hr
  have hflat := wfN_flat t hwf
  have hid := count_identity (descendants t)
    (fun n hn => hflat n (by simp [allNodes, hn]))
  refine ⟨?_, hr.2.1, hr.2.2⟩
  rw [hd2, hf2, hr.1]
  simp only [allNodes, cntFiles_cons, cntErrs_cons, List.length_cons]
  have hft := hflat t (by simp [allNodes])
  rcases hne : t.err with _ | e0 <;> rcases hfi : t.fi with _ | m0
  · simp_all [flatWf, Node.isDir] <;> omega
  · rcases hd : m0.isDir with _ | _ <;> simp_all [flatWf, Node.isDir] <;> omega
  · simp_all [flatWf, Node.isDir] <;> omega
  · rcases hd : m0.isDir with _ | _ <;> simp_all [flatWf, Node.isDir] <;> omega

/-- Claim C1, counterexample to the frozen wording: the listing-failed
directory is counted (`dirs = 1`) yet renders as an error line, so
`dirs + files = 1` while the claimed count — non-error lines excluding
the root's own line — is `(2 - 1) - 1 = 0`. -/
theorem C1_counts_vs_lines_counterexample :
    (visitAt c1env {} "r" 0 []).2.1 = 1
    ∧ (visitAt c1env {} "r" 0 []).2.2.1 = 0
    ∧ (printTop c1env {} 9 (visitAt c1env {} "r" 0 []).1
        (visitAt c1env {} "r" 0 []).2.2.2).map (fun r => r.1)
      = some "r\n└── bad [boom]\n"
    ∧ countNL "r\n└── bad [boom]\n" = 2
    ∧ cntErrs (allNodes (visitAt c1env {} "r" 0 []).1) = 1
    ∧ (visitAt c1env {} "r" 0 []).1.err = none
    ∧ (visitAt c1env {} "r" 0 []).1.isDir = true
    ∧ cntBadDirs (descendants (visitAt c1env {} "r" 0 []).1) = 1
    ∧ (1 + 0 : Nat) ≠ 2 - 1 - 1 := by
  refine ⟨by decide, by decide, by decide, by decide, by decide, by decide,
    by decide, by decide, by decide⟩

/-- Claim C1, witness: on the error-free tree the corrected equation
instantiates to `1 + 2 + 0 + 1 = 4 + 0`. -/
theorem C1_counts_vs_lines_witness :
    1 + 2 + cntErrs (allNodes c1wt)
        + (if c1wt.err = none ∧ c1wt.isDir = true then 1 else 0)
      = countNL c1wout + cntBadDirs (descendants c1wt)
    ∧ countNL c1wout = 4 := by
  have H := C1_counts_vs_lines c1wenv {} "w" [] 9 c1wt c1wt 1 2 c1wvp c1wvp c1wout
    rfl (by decide) (by decide) (by decide)
  exact ⟨H.1, by decide⟩

end GoTree
